import Mathlib

/-!
# Round-robin load balancer (`main.go`)

A shallow embedding of the selection and forwarding logic of the reverse-proxy
load balancer, followed by theorems about it.

* `roundRobinCount` is a Go `int`: it is kept as an `Int` and every `++` goes
  through `wrapInt` (two's complement, 64 bits); `%` is the truncated remainder
  `Int.tmod`, and an index outside `0 .. len-1` is a run-time fault.
* `IsAlive` performs a network round trip.  Its answer is supplied by an oracle
  `Liveness`, asked with the number of events observed so far, so the answer may
  change from one probe to the next; a liveness that is fixed is an oracle that
  ignores that number.
* Probes, forwards and the 503 response are recorded in an event trace; the
  diagnostic `Printf` lines are not recorded, but the `Address()` calls inside
  them are evaluated because they fault on a nil interface value.
* The `for` loop of `getNextAvailableServer` has no bound; it is run with fuel,
  one unit per evaluation of the loop condition, and `Outcome.spinning` says
  the fuel ran out with the loop still going.
-/

namespace LoadBalancing

/-! ## Data model -/

/-- The concrete backend `simpleServer`.  Its `proxy` field is built from the
address alone (`NewSingleHostReverseProxy(serverUrl)`), so the address stands
for both. -/
structure simpleServer where
  address : String
  deriving DecidableEq, Repr

/-- A value of the interface type `Server`: `none` is the nil interface value,
`some s` a pointer to the `simpleServer` `s`. -/
abbrev Server := Option simpleServer

/-- The struct `LoadBalancer`. -/
structure LoadBalancer where
  port : String
  roundRobinCount : Int
  servers : List Server
  deriving DecidableEq, Repr

/-- Run-time faults of the Go runtime that the modelled code can raise. -/
inductive GoPanic where
  | divideByZero
  | indexOutOfRange
  | nilDereference
  deriving DecidableEq, Repr

/-- Observable effects, in the order in which they happen. -/
inductive Event where
  | probed (s : simpleServer) (ok : Bool)
  | forwarded (s : simpleServer)
  | serviceUnavailable
  deriving DecidableEq, Repr

/-- How a call ends: it returns, it faults, or it is still looping when the
fuel is used up. -/
inductive Outcome (α : Type) where
  | returned (a : α)
  | panicked (p : GoPanic)
  | spinning
  deriving DecidableEq, Repr

/-- Applies a function to the value a call returns. -/
def Outcome.map {α β : Type} (f : α → β) : Outcome α → Outcome β
  | .returned a => .returned (f a)
  | .panicked p => .panicked p
  | .spinning => .spinning

/-- The balancer together with the effects observed so far. -/
structure State where
  lb : LoadBalancer
  trace : List Event
  deriving DecidableEq, Repr

/-- Answer of the network to a liveness probe of a server, made after the
given number of events. -/
abbrev Liveness := Nat → simpleServer → Bool

/-- A liveness assignment that does not change over time. -/
def fixedLiveness (live : simpleServer → Bool) : Liveness := fun _ s => live s

/-! ## Machine integers -/

/-- Two's complement reduction of an integer to the range of a 64-bit `int`. -/
def wrapInt (x : Int) : Int := (x + 2 ^ 63) % 2 ^ 64 - 2 ^ 63

/-- The statement `lb.roundRobinCount++`. -/
def State.incrCount (st : State) : State :=
  { st with lb := { st.lb with roundRobinCount := wrapInt (st.lb.roundRobinCount + 1) } }

/-- Appends one event to the trace. -/
def State.emit (st : State) (e : Event) : State :=
  { st with trace := st.trace ++ [e] }

/-! ## Operations -/

/-- The function `NewLoadBalancer`. -/
def NewLoadBalancer (port : String) (servers : List Server) : LoadBalancer :=
  { port := port, roundRobinCount := 0, servers := servers }

/-- The method `simpleServer.Address`. -/
def simpleServer.Address (s : simpleServer) : String := s.address

/-- The interface call `server.Address()`. -/
def Address : Server → Outcome String
  | some s => .returned s.Address
  | none => .panicked .nilDereference

/-- The interface call `server.IsAlive()`: one probe, recorded in the trace. -/
def IsAlive (alive : Liveness) : Server → State → Outcome (Bool × State)
  | some s, st =>
    let ok := alive st.trace.length s
    .returned (ok, st.emit (.probed s ok))
  | none, _ => .panicked .nilDereference

/-- The interface call `server.Serve(rw, req)`: the request is handed to the
reverse proxy of that server. -/
def Serve : Server → State → Outcome State
  | some s, st => .returned (st.emit (.forwarded s))
  | none, _ => .panicked .nilDereference

/-- The expression `lb.servers[lb.roundRobinCount%len(lb.servers)]`. -/
def serverAtCursor (lb : LoadBalancer) : Outcome Server :=
  if lb.servers.length = 0 then .panicked .divideByZero
  else
    let idx := Int.tmod lb.roundRobinCount (lb.servers.length : Int)
    if idx < 0 then .panicked .indexOutOfRange
    else
      match lb.servers[idx.toNat]? with
      | some server => .returned server
      | none => .panicked .indexOutOfRange

/-- The loop `for !server.IsAlive() { ... }` of `getNextAvailableServer`
together with the two statements after it. -/
def skipLoop (alive : Liveness) : Nat → Server → State → Outcome (Server × State)
  | 0, _, _ => .spinning
  | fuel + 1, server, st =>
    match IsAlive alive server st with
    | .returned (true, st1) =>
      match Address server with
      | .returned _ => .returned (server, st1.incrCount)
      | .panicked p => .panicked p
      | .spinning => .spinning
    | .returned (false, st1) =>
      match Address server with
      | .returned _ =>
        match serverAtCursor st1.incrCount.lb with
        | .returned next => skipLoop alive fuel next st1.incrCount
        | .panicked p => .panicked p
        | .spinning => .spinning
      | .panicked p => .panicked p
      | .spinning => .spinning
    | .panicked p => .panicked p
    | .spinning => .spinning

/-- The method `LoadBalancer.getNextAvailableServer`. -/
def getNextAvailableServer (alive : Liveness) (fuel : Nat) (st : State) :
    Outcome (Server × State) :=
  match serverAtCursor st.lb with
  | .returned server =>
    match Address server with
    | .returned _ => skipLoop alive fuel server st
    | .panicked p => .panicked p
    | .spinning => .spinning
  | .panicked p => .panicked p
  | .spinning => .spinning

/-- The method `LoadBalancer.serveProxy`. -/
def serveProxy (alive : Liveness) (fuel : Nat) (st : State) : Outcome State :=
  match getNextAvailableServer alive fuel st.incrCount with
  | .returned (server, st1) =>
    match Address server with
    | .returned _ =>
      if server ≠ none then Serve server st1
      else .returned (st1.emit .serviceUnavailable)
    | .panicked p => .panicked p
    | .spinning => .spinning
  | .panicked p => .panicked p
  | .spinning => .spinning

/-- The `range` loop of `displayServerHealthAndOrder` over the remaining
servers. -/
def healthSweep (alive : Liveness) : List Server → State → Outcome State
  | [], st => .returned st
  | server :: rest, st =>
    match IsAlive alive server st with
    | .returned (_, st1) =>
      match Address server with
      | .returned _ => healthSweep alive rest st1
      | .panicked p => .panicked p
      | .spinning => .spinning
    | .panicked p => .panicked p
    | .spinning => .spinning

/-- The method `LoadBalancer.displayServerHealthAndOrder`. -/
def displayServerHealthAndOrder (alive : Liveness) (st : State) : Outcome State :=
  healthSweep alive st.lb.servers st

/-! ## Sequences of calls -/

/-- A balancer built by `NewLoadBalancer`, before any effect. -/
def freshState (port : String) (servers : List Server) : State :=
  { lb := NewLoadBalancer port servers, trace := [] }

/-- The given number of consecutive `getNextAvailableServer` calls; the servers
they return are collected in call order. -/
def selectTimes (alive : Liveness) (fuel : Nat) : Nat → State → Outcome (List Server × State)
  | 0, st => .returned ([], st)
  | k + 1, st =>
    match getNextAvailableServer alive fuel st with
    | .returned (server, st1) =>
      match selectTimes alive fuel k st1 with
      | .returned (rest, st2) => .returned (server :: rest, st2)
      | .panicked p => .panicked p
      | .spinning => .spinning
    | .panicked p => .panicked p
    | .spinning => .spinning

/-- The given number of consecutive `serveProxy` calls. -/
def serveTimes (alive : Liveness) (fuel : Nat) : Nat → State → Outcome State
  | 0, st => .returned st
  | k + 1, st =>
    match serveProxy alive fuel st with
    | .returned st1 => serveTimes alive fuel k st1
    | .panicked p => .panicked p
    | .spinning => .spinning

/-- The servers that requests were forwarded to, in order. -/
def forwardedTo : List Event → List simpleServer
  | [] => []
  | .forwarded s :: rest => s :: forwardedTo rest
  | _ :: rest => forwardedTo rest

/-- The given number of consecutive runs of the health report. -/
def displayTimes (alive : Liveness) : Nat → State → Outcome State
  | 0, st => .returned st
  | m + 1, st =>
    match displayServerHealthAndOrder alive st with
    | .returned st1 => displayTimes alive m st1
    | .panicked p => .panicked p
    | .spinning => .spinning

/-- The server an event probes: `none` for an event that is not a probe. -/
def Event.probeTarget : Event → Server
  | .probed s _ => some s
  | _ => none

/-! ## Vocabulary of the statements -/

/-- Position, among the live servers, of the first live entry at or after the
index `p`, when the entry at index `i` is the only dead one: the entries before
`i` keep their index, the dead one stands for its successor, and the entries
after `i` move down by one. -/
def liveIndex (i p : Nat) : Nat := if p ≤ i then p else p - 1

/-- Entry `servers[j mod n]` of a list of servers, read circularly; it is a
non-nil interface value as soon as the list is non-empty. -/
def circ (l : List simpleServer) (j : Nat) : Server := l[j % l.length]?

/-- Events of probing, under a fixed liveness, the entries at the cursor
values `c, c+1, ..., c+m-1` one after the other. -/
def probeRun (live : simpleServer → Bool) (l : List simpleServer) : Nat → Nat → List Event
  | _, 0 => []
  | c, m + 1 =>
    (match circ l c with
      | some s => [Event.probed s (live s)]
      | none => []) ++ probeRun live l (c + 1) m

/-- A balancer state over a list of (non-nil) servers with the given cursor. -/
def stateAt (port : String) (l : List simpleServer) (count : Int) (trace : List Event) : State :=
  { lb := { port := port, roundRobinCount := count, servers := l.map some }, trace := trace }

/-- A dead probe: some server was probed and did not answer. -/
def Event.isDeadProbe : Event → Bool
  | .probed _ false => true
  | _ => false

/-- Puts earlier events in front of the trace of a selection result. -/
def withEarlier (tr0 : List Event) (r : Server × State) : Server × State :=
  (r.1, { lb := r.2.lb, trace := tr0 ++ r.2.trace })

/-! ## Sample configuration -/

/-- Sample backend `A`. -/
def srvA : simpleServer := { address := "http://a" }

/-- Sample backend `B`. -/
def srvB : simpleServer := { address := "http://b" }

/-- Sample backend `C`. -/
def srvC : simpleServer := { address := "http://c" }

/-- Liveness under which every server answers. -/
def allLive : simpleServer → Bool := fun _ => true

/-- Liveness under which every server but `B` answers. -/
def onlyBDead : simpleServer → Bool := fun s => decide (s ≠ srvB)

/-- Liveness under which no server answers. -/
def noneLive : simpleServer → Bool := fun _ => false

/-- A liveness that changes over time: a probe is answered exactly when an
even number of events came before it. -/
def evenLive : Liveness := fun t _ => t % 2 == 0

/-! ## Basic facts -/

theorem wrapInt_eq_self {x : Int} (h1 : -(2 ^ 63) ≤ x) (h2 : x < 2 ^ 63) : wrapInt x = x := by
  unfold wrapInt
  omega

theorem circ_mem (l : List simpleServer) (j : Nat) (s : simpleServer) (h : circ l j = some s) :
    s ∈ l := by
  unfold circ at h
  exact List.getElem?_mem h

theorem circ_some (l : List simpleServer) (j : Nat) (hne : l ≠ []) :
    ∃ s, circ l j = some s := by
  have hlt : j % l.length < l.length := Nat.mod_lt _ (List.length_pos.mpr hne)
  exact ⟨l[j % l.length], by unfold circ; exact List.getElem?_eq_getElem hlt⟩

theorem serverAtCursor_stateAt (port : String) (l : List simpleServer) (c : Nat)
    (tr : List Event) (hne : l ≠ []) :
    serverAtCursor (stateAt port l c tr).lb = .returned (circ l c) := by
  have hlen : 0 < l.length := List.length_pos.mpr hne
  have hmod : Int.tmod (c : Int) (l.length : Int) = ((c % l.length : Nat) : Int) :=
    (Int.ofNat_tmod c l.length).symm
  have hlt : c % l.length < l.length := Nat.mod_lt _ hlen
  unfold serverAtCursor stateAt
  simp only [List.length_map, hmod]
  rw [if_neg (by omega), if_neg (by omega)]
  simp only [Int.toNat_ofNat, List.getElem?_map]
  unfold circ
  rw [List.getElem?_eq_getElem hlt]
  rfl

theorem incrCount_stateAt (port : String) (l : List simpleServer) (x : Int) (tr : List Event) :
    (stateAt port l x tr).incrCount = stateAt port l (wrapInt (x + 1)) tr := rfl

theorem emit_stateAt (port : String) (l : List simpleServer) (x : Int) (tr : List Event)
    (e : Event) : (stateAt port l x tr).emit e = stateAt port l x (tr ++ [e]) := rfl

theorem isAlive_fixed (live : simpleServer → Bool) (s : simpleServer) (st : State) :
    IsAlive (fixedLiveness live) (some s) st
      = .returned (live s, st.emit (.probed s (live s))) := rfl

theorem wrapInt_succ_nat (c : Nat) (h : c + 1 < 2 ^ 63) :
    wrapInt ((c : Int) + 1) = ((c + 1 : Nat) : Int) := by
  rw [wrapInt_eq_self] <;> push_cast <;> omega

/-- One run of the skip loop under a fixed liveness: the entries at the cursor
values `c .. c+d-1` are dead, the one at `c+d` is alive, and the counter does not
pass the largest `int` while skipping. -/
theorem skipLoop_skip (live : simpleServer → Bool) (port : String) (l : List simpleServer)
    (hne : l ≠ []) :
    ∀ (d c : Nat) (tr : List Event) (fuel : Nat), d < fuel →
      (∀ j, j < d → (circ l (c + j)).map live = some false) →
      (circ l (c + d)).map live = some true →
      c + d < 2 ^ 63 →
      skipLoop (fixedLiveness live) fuel (circ l c) (stateAt port l c tr)
        = .returned (circ l (c + d),
            stateAt port l (wrapInt ((c : Int) + d + 1)) (tr ++ probeRun live l c (d + 1))) := by
  intro d
  induction d with
  | zero =>
    intro c tr fuel hf _ hd _
    obtain ⟨f, rfl⟩ : ∃ f, fuel = f + 1 := ⟨fuel - 1, by omega⟩
    obtain ⟨s, hs⟩ := circ_some l c hne
    have hls : live s = true := by simpa [hs] using hd
    simp only [Nat.add_zero, hs, skipLoop, isAlive_fixed, hls, Address, emit_stateAt,
      incrCount_stateAt, probeRun, List.append_nil, Nat.cast_zero, Int.add_zero]
  | succ d ih =>
    intro c tr fuel hf hdead hd hb
    obtain ⟨f, rfl⟩ : ∃ f, fuel = f + 1 := ⟨fuel - 1, by omega⟩
    obtain ⟨s, hs⟩ := circ_some l c hne
    have hls : live s = false := by simpa [hs] using hdead 0 (by omega)
    have hw : wrapInt ((c : Int) + 1) = ((c + 1 : Nat) : Int) := wrapInt_succ_nat c (by omega)
    have e1 : c + 1 + d = c + (d + 1) := by omega
    have hd1 : (circ l (c + 1 + d)).map live = some true := by rw [e1]; exact hd
    have hdead1 : ∀ j, j < d → (circ l (c + 1 + j)).map live = some false := by
      intro j hj
      have e : c + 1 + j = c + (j + 1) := by omega
      rw [e]
      exact hdead (j + 1) (by omega)
    have hb1 : c + 1 + d < 2 ^ 63 := by rw [e1]; exact hb
    have hnext := ih (c + 1) (tr ++ [Event.probed s false]) f (by omega) hdead1 hd1 hb1
    simp only [hs, skipLoop, isAlive_fixed, hls, Address, emit_stateAt, incrCount_stateAt, hw,
      serverAtCursor_stateAt port l (c + 1) _ hne, hnext]
    have e2 : (((c + 1 : Nat) : Int) + (d : Int) + 1) = ((c : Int) + ((d + 1 : Nat) : Int) + 1) := by
      push_cast; ring
    rw [e1, e2]
    conv_rhs => rw [probeRun]
    simp [hs, hls, List.append_assoc]

/-- One `getNextAvailableServer` call under a fixed liveness, from a cursor
`c ≥ 0`: it returns the first live entry at or after the cursor. -/
theorem getNext_skip (live : simpleServer → Bool) (port : String) (l : List simpleServer)
    (hne : l ≠ []) (d c : Nat) (tr : List Event) (fuel : Nat) (hf : d < fuel)
    (hdead : ∀ j, j < d → (circ l (c + j)).map live = some false)
    (hd : (circ l (c + d)).map live = some true) (hb : c + d < 2 ^ 63) :
    getNextAvailableServer (fixedLiveness live) fuel (stateAt port l c tr)
      = .returned (circ l (c + d),
          stateAt port l (wrapInt ((c : Int) + d + 1)) (tr ++ probeRun live l c (d + 1))) := by
  obtain ⟨s, hs⟩ := circ_some l c hne
  have h := skipLoop_skip live port l hne d c tr fuel hf hdead hd hb
  unfold getNextAvailableServer
  rw [serverAtCursor_stateAt port l c tr hne]
  simp only [hs, Address]
  rw [← hs]
  exact h

/-- Every residue is reached from every cursor within one sweep. -/
theorem offset_reaches (n c i : Nat) (hi : i < n) :
    ∃ d, d < n ∧ (c + d) % n = i := by
  have hn : 0 < n := by omega
  have hc : c % n < n := Nat.mod_lt _ hn
  refine ⟨(i + n - c % n) % n, Nat.mod_lt _ hn, ?_⟩
  rw [Nat.add_mod_mod, ← Nat.mod_add_mod c n (i + n - c % n)]
  have e : c % n + (i + n - c % n) = i + n := by omega
  rw [e, Nat.add_mod_right, Nat.mod_eq_of_lt hi]

/-- With a live server in the list, the circular scan from any cursor meets a
first live entry within one sweep. -/
theorem exists_first_live (live : simpleServer → Bool) (l : List simpleServer) (c : Nat)
    (h : ∃ s, s ∈ l ∧ live s = true) :
    ∃ d, d < l.length ∧ (circ l (c + d)).map live = some true ∧
      ∀ j, j < d → (circ l (c + j)).map live = some false := by
  obtain ⟨s, hs, hls⟩ := h
  have hne : l ≠ [] := List.ne_nil_of_mem hs
  obtain ⟨i, hi, hget⟩ := List.mem_iff_getElem.mp hs
  obtain ⟨d0, hd0, hmod⟩ := offset_reaches l.length c i hi
  have hP : ∃ d, (circ l (c + d)).map live = some true := by
    refine ⟨d0, ?_⟩
    unfold circ
    rw [hmod, List.getElem?_eq_getElem hi, hget]
    simp [hls]
  refine ⟨Nat.find hP, ?_, Nat.find_spec hP, ?_⟩
  · exact lt_of_le_of_lt (Nat.find_min' hP (by
      unfold circ
      rw [hmod, List.getElem?_eq_getElem hi, hget]
      simp [hls])) hd0
  · intro j hj
    have hnot := Nat.find_min hP hj
    obtain ⟨t, ht⟩ := circ_some l (c + j) hne
    rw [ht] at hnot ⊢
    cases hlt : live t
    · simp [hlt]
    · exact absurd (by simp [hlt]) hnot

/-! ## What a completed call guarantees, for any liveness -/

theorem serverAtCursor_mem (lb : LoadBalancer) (x : Server)
    (h : serverAtCursor lb = .returned x) : x ∈ lb.servers := by
  unfold serverAtCursor at h
  split at h
  · cases h
  · simp only at h
    split at h
    · cases h
    · split at h
      · rename_i server hget
        cases h
        exact List.getElem?_mem hget
      · cases h

theorem skipLoop_returned (alive : Liveness) :
    ∀ (fuel : Nat) (server : Server) (st : State) (x : Server) (st1 : State),
      skipLoop alive fuel server st = .returned (x, st1) → server ∈ st.lb.servers →
      x ∈ st.lb.servers ∧ st1.lb.servers = st.lb.servers ∧ st1.lb.port = st.lb.port ∧
        ∃ s evs, x = some s ∧ st1.trace = st.trace ++ evs ++ [Event.probed s true] ∧
          (∀ e, e ∈ evs → e.isDeadProbe = true) ∧ ∃ t, alive t s = true := by
  intro fuel
  induction fuel with
  | zero => intro server st x st1 h; cases h
  | succ f ih =>
    intro server st x st1 h hmem
    cases server with
    | none => cases h
    | some s =>
      cases hok : alive st.trace.length s with
      | true =>
        simp only [skipLoop, IsAlive, hok, Address] at h
        cases h
        exact ⟨hmem, rfl, rfl, s, [], rfl, by simp [State.incrCount, State.emit],
          (by intro e he; cases he), _, hok⟩
      | false =>
        simp only [skipLoop, IsAlive, hok, Address] at h
        cases hnext : serverAtCursor (st.emit (Event.probed s false)).incrCount.lb with
        | returned next =>
          rw [hnext] at h
          obtain ⟨h1, h2, h3, t, evs, h4, h5, h6, h7⟩ :=
            ih next _ x st1 h (serverAtCursor_mem _ _ hnext)
          refine ⟨h1, h2, h3, t, Event.probed s false :: evs, h4, ?_, ?_, h7⟩
          · rw [h5]; simp [State.incrCount, State.emit]
          · intro e he
            rcases List.mem_cons.mp he with rfl | he
            · rfl
            · exact h6 e he
        | panicked p => rw [hnext] at h; cases h
        | spinning => rw [hnext] at h; cases h

theorem getNext_returned (alive : Liveness) (fuel : Nat) (st : State) (x : Server) (st1 : State)
    (h : getNextAvailableServer alive fuel st = .returned (x, st1)) :
    x ∈ st.lb.servers ∧ st1.lb.servers = st.lb.servers ∧ st1.lb.port = st.lb.port ∧
      ∃ s evs, x = some s ∧ st1.trace = st.trace ++ evs ++ [Event.probed s true] ∧
        (∀ e, e ∈ evs → e.isDeadProbe = true) ∧ ∃ t, alive t s = true := by
  unfold getNextAvailableServer at h
  cases hcur : serverAtCursor st.lb with
  | returned server =>
    rw [hcur] at h
    cases server with
    | none => cases h
    | some s =>
      simp only [Address] at h
      exact skipLoop_returned alive fuel (some s) st x st1 h (serverAtCursor_mem _ _ hcur)
  | panicked p => rw [hcur] at h; cases h
  | spinning => rw [hcur] at h; cases h

theorem serveProxy_returned (alive : Liveness) (fuel : Nat) (st st2 : State)
    (h : serveProxy alive fuel st = .returned st2) :
    ∃ s st1 evs, getNextAvailableServer alive fuel st.incrCount = .returned (some s, st1) ∧
      some s ∈ st.lb.servers ∧
      st1.trace = st.trace ++ evs ++ [Event.probed s true] ∧
      (∀ e, e ∈ evs → e.isDeadProbe = true) ∧
      st2 = st1.emit (Event.forwarded s) := by
  unfold serveProxy at h
  cases hsel : getNextAvailableServer alive fuel st.incrCount with
  | returned r =>
    obtain ⟨x, st1⟩ := r
    rw [hsel] at h
    obtain ⟨h1, _, _, s, evs, rfl, h5, h6, _⟩ := getNext_returned alive fuel _ x st1 hsel
    simp only [Address, ne_eq, reduceCtorEq, not_false_eq_true, if_true, Serve] at h
    cases h
    exact ⟨s, st1, evs, rfl, h1, h5, h6, rfl⟩
  | panicked p => rw [hsel] at h; cases h
  | spinning => rw [hsel] at h; cases h

theorem forwardedTo_append (xs ys : List Event) :
    forwardedTo (xs ++ ys) = forwardedTo xs ++ forwardedTo ys := by
  induction xs with
  | nil => rfl
  | cons e rest ih => cases e <;> simp [forwardedTo, ih]

theorem forwardedTo_deadProbes (evs : List Event) (h : ∀ e, e ∈ evs → e.isDeadProbe = true) :
    forwardedTo evs = [] := by
  induction evs with
  | nil => rfl
  | cons e rest ih =>
    have he := h e (List.mem_cons_self _ _)
    have hrest := ih (fun e' he' => h e' (List.mem_cons_of_mem _ he'))
    cases e with
    | probed s ok => simpa [forwardedTo] using hrest
    | forwarded s => cases he
    | serviceUnavailable => cases he

/-! ## No live server -/

/-- Under a fixed liveness with no live server in the list, a
`getNextAvailableServer` call never returns, whatever the fuel. -/
theorem getNext_allDead_never_returns (live : simpleServer → Bool) (st : State)
    (hdead : ∀ s, some s ∈ st.lb.servers → live s = false) (fuel : Nat)
    (r : Server × State) :
    getNextAvailableServer (fixedLiveness live) fuel st ≠ .returned r := by
  intro h
  obtain ⟨x, st1⟩ := r
  obtain ⟨h1, _, _, s, _, rfl, _, _, t, ht⟩ := getNext_returned _ fuel st x st1 h
  have := hdead s h1
  simp [fixedLiveness, this] at ht

theorem serverAtCursor_single (port : String) (s : simpleServer) (x : Int) (tr : List Event) :
    serverAtCursor (stateAt port [s] x tr).lb = .returned (some s) := by
  simp [serverAtCursor, stateAt, Int.tmod_one]

theorem skipLoop_single_dead (live : simpleServer → Bool) (port : String) (s : simpleServer)
    (hs : live s = false) :
    ∀ (fuel : Nat) (x : Int) (tr : List Event),
      skipLoop (fixedLiveness live) fuel (some s) (stateAt port [s] x tr) = .spinning := by
  intro fuel
  induction fuel with
  | zero => intro x tr; rfl
  | succ f ih =>
    intro x tr
    simp only [skipLoop, isAlive_fixed, hs, Address, emit_stateAt, incrCount_stateAt,
      serverAtCursor_single, ih]

theorem getNext_single_dead (live : simpleServer → Bool) (port : String) (s : simpleServer)
    (hs : live s = false) (fuel : Nat) (x : Int) (tr : List Event) :
    getNextAvailableServer (fixedLiveness live) fuel (stateAt port [s] x tr) = .spinning := by
  unfold getNextAvailableServer
  simp only [serverAtCursor_single, Address, skipLoop_single_dead live port s hs]

/-! ## Sequences of selections -/

theorem probeRun_succ (live : simpleServer → Bool) (l : List simpleServer) (c m : Nat) :
    probeRun live l c (m + 1) = probeRun live l c 1 ++ probeRun live l (c + 1) m := by
  simp [probeRun]

theorem circ_live_of_all (live : simpleServer → Bool) (l : List simpleServer) (hne : l ≠ [])
    (hall : ∀ s, s ∈ l → live s = true) (j : Nat) : (circ l j).map live = some true := by
  obtain ⟨s, hs⟩ := circ_some l j hne
  rw [hs]
  simp [hall s (circ_mem l j s hs)]

/-- The last of `k+1` consecutive selections is a selection from the state the
first `k` leave. -/
theorem selectTimes_snoc (alive : Liveness) (fuel : Nat) :
    ∀ (k : Nat) (st : State),
      selectTimes alive fuel (k + 1) st
        = match selectTimes alive fuel k st with
          | .returned (xs, st1) =>
            match getNextAvailableServer alive fuel st1 with
            | .returned (x, st2) => .returned (xs ++ [x], st2)
            | .panicked p => .panicked p
            | .spinning => .spinning
          | .panicked p => .panicked p
          | .spinning => .spinning := by
  intro k
  induction k with
  | zero =>
    intro st
    simp only [selectTimes]
    cases getNextAvailableServer alive fuel st with
    | returned r => rfl
    | panicked p => rfl
    | spinning => rfl
  | succ k ih =>
    intro st
    rw [selectTimes]
    cases hsel : getNextAvailableServer alive fuel st with
    | returned r =>
      obtain ⟨x, st1⟩ := r
      simp only []
      rw [ih st1]
      conv_rhs => rw [selectTimes]
      simp only [hsel]
      cases selectTimes alive fuel k st1 with
      | returned r2 =>
        obtain ⟨xs, st2⟩ := r2
        simp only []
        cases getNextAvailableServer alive fuel st2 with
        | returned r3 => rfl
        | panicked p => rfl
        | spinning => rfl
      | panicked p => rfl
      | spinning => rfl
    | panicked p =>
      conv_rhs => rw [selectTimes]
      simp only [hsel]
    | spinning =>
      conv_rhs => rw [selectTimes]
      simp only [hsel]

theorem selectTimes_snoc_fault (alive : Liveness) (fuel k : Nat) (st st1 : State)
    (xs : List Server) (p : GoPanic)
    (h1 : selectTimes alive fuel k st = .returned (xs, st1))
    (h2 : getNextAvailableServer alive fuel st1 = .panicked p) :
    selectTimes alive fuel (k + 1) st = .panicked p := by
  rw [selectTimes_snoc, h1]
  dsimp only
  rw [h2]

/-- With every server alive, `k` selections from a cursor `c ≥ 0` return the
entries at `c, c+1, ..., c+k-1`, as long as the cursor values they read do not
exceed the largest `int`. -/
theorem selectTimes_allLive (live : simpleServer → Bool) (port : String) (l : List simpleServer)
    (hne : l ≠ []) (hall : ∀ s, s ∈ l → live s = true) (fuel : Nat) (hf : 0 < fuel) :
    ∀ (k c : Nat) (tr : List Event), c < 2 ^ 63 → c + k ≤ 2 ^ 63 →
      selectTimes (fixedLiveness live) fuel k (stateAt port l c tr)
        = .returned ((List.range k).map (fun j => circ l (c + j)),
            stateAt port l (wrapInt ((c : Int) + k)) (tr ++ probeRun live l c k)) := by
  intro k
  induction k with
  | zero =>
    intro c tr hc _
    have hw : wrapInt ((c : Int) + (0 : Nat)) = c := by
      rw [wrapInt_eq_self] <;> push_cast <;> omega
    rw [hw]
    simp [selectTimes, probeRun]
  | succ k ih =>
    intro c tr hc hk
    have hcall := getNext_skip live port l hne 0 c tr fuel hf (fun j hj => absurd hj (by omega))
      (circ_live_of_all live l hne hall _) (by omega)
    rw [selectTimes, hcall]
    rcases Nat.eq_zero_or_pos k with rfl | hpos
    · simp [selectTimes, List.range_succ]
    · have hw : wrapInt ((c : Int) + (0 : Nat) + 1) = ((c + 1 : Nat) : Int) := by
        rw [wrapInt_eq_self] <;> push_cast <;> omega
      rw [hw]
      dsimp only
      rw [ih (c + 1) _ (by omega) (by omega)]
      simp only [List.range_succ_eq_map, List.map_cons, List.map_map, Nat.add_zero]
      have e1 : ((c + 1 : Nat) : Int) + (k : Int) = (c : Int) + ((k + 1 : Nat) : Int) := by
        push_cast; ring
      have e2 : (fun j => circ l (c + 1 + j)) = (fun j => circ l (c + j)) ∘ Nat.succ := by
        funext j
        have e : c + 1 + j = c + (j + 1) := by omega
        simp only [Function.comp, Nat.succ_eq_add_one, e]
      rw [e1, e2, probeRun_succ live l c k, List.append_assoc]

theorem circ_of_lt (l : List simpleServer) (j : Nat) (hj : j < l.length) : circ l j = l[j]? := by
  unfold circ
  rw [Nat.mod_eq_of_lt hj]

theorem circ_length (l : List simpleServer) : circ l l.length = l[0]? := by
  unfold circ
  rw [Nat.mod_self]

theorem map_circ_range (l : List simpleServer) :
    (List.range l.length).map (fun j => circ l j) = l.map some := by
  apply List.ext_getElem?
  intro i
  by_cases hi : i < l.length
  · simp [hi, circ_of_lt l i hi]
  · have hle : l.length ≤ i := Nat.le_of_not_lt hi
    rw [List.getElem?_eq_none (by simpa using hle), List.getElem?_eq_none (by simpa using hle)]

theorem serverAtCursor_negative (lb : LoadBalancer) (hlen : lb.servers.length ≠ 0)
    (hneg : Int.tmod lb.roundRobinCount (lb.servers.length : Int) < 0) :
    serverAtCursor lb = .panicked .indexOutOfRange := by
  unfold serverAtCursor
  rw [if_neg hlen]
  simp only [hneg, if_true]

theorem serverAtCursor_of_index (lb : LoadBalancer) (j : Nat) (x : Server)
    (hlen : lb.servers.length ≠ 0)
    (hidx : Int.tmod lb.roundRobinCount (lb.servers.length : Int) = (j : Int))
    (hget : lb.servers[j]? = some x) :
    serverAtCursor lb = .returned x := by
  unfold serverAtCursor
  rw [if_neg hlen]
  simp only [hidx]
  rw [if_neg (by omega)]
  simp only [Int.toNat_ofNat, hget]

/-- At the cursor `-2^63` the index into a list of three servers is
`-2^63 % 3 = -2`: the selection faults. -/
theorem serverAtCursor_three_at_min (port : String) (a b c : simpleServer) (tr : List Event) :
    serverAtCursor (stateAt port [a, b, c] (-(2 ^ 63)) tr).lb = .panicked .indexOutOfRange := by
  apply serverAtCursor_negative
  · simp [stateAt]
  · show Int.tmod (-(2 ^ 63)) ((3 : Nat) : Int) < 0
    decide

theorem getNext_of_cursor_fault (alive : Liveness) (fuel : Nat) (st : State) (p : GoPanic)
    (h : serverAtCursor st.lb = .panicked p) :
    getNextAvailableServer alive fuel st = .panicked p := by
  unfold getNextAvailableServer
  rw [h]

theorem getNext_three_at_min (alive : Liveness) (fuel : Nat) (port : String)
    (a b c : simpleServer) (tr : List Event) :
    getNextAvailableServer alive fuel (stateAt port [a, b, c] (-(2 ^ 63)) tr)
      = .panicked .indexOutOfRange :=
  getNext_of_cursor_fault _ _ _ _ (serverAtCursor_three_at_min port a b c tr)

theorem freshState_eq_stateAt (port : String) (l : List simpleServer) :
    freshState port (l.map some) = stateAt port l ((0 : Nat) : Int) [] := rfl

/-- The first `k ≤ 2^63` selections on a fresh balancer whose servers are all
alive. -/
theorem selectTimes_fresh (live : simpleServer → Bool) (port : String) (l : List simpleServer)
    (hne : l ≠ []) (hall : ∀ s, s ∈ l → live s = true) (fuel : Nat) (hf : 0 < fuel) (k : Nat)
    (hk : k ≤ 2 ^ 63) :
    selectTimes (fixedLiveness live) fuel k (freshState port (l.map some))
      = .returned ((List.range k).map (fun j => circ l j),
          stateAt port l (wrapInt (k : Int)) (probeRun live l 0 k)) := by
  rw [freshState_eq_stateAt,
    selectTimes_allLive live port l hne hall fuel hf k 0 [] (by omega) (by omega)]
  simp

theorem wrapInt_cast_two_pow : wrapInt ((2 ^ 63 : Nat) : Int) = -(2 ^ 63) := by
  decide

/-! ## Requests -/

theorem serveProxy_of_select_fault (alive : Liveness) (fuel : Nat) (st : State) (p : GoPanic)
    (h : getNextAvailableServer alive fuel st.incrCount = .panicked p) :
    serveProxy alive fuel st = .panicked p := by
  unfold serveProxy
  rw [h]

theorem serveProxy_of_select (alive : Liveness) (fuel : Nat) (st st1 : State) (s : simpleServer)
    (h : getNextAvailableServer alive fuel st.incrCount = .returned (some s, st1)) :
    serveProxy alive fuel st = .returned (st1.emit (Event.forwarded s)) := by
  unfold serveProxy
  rw [h]
  simp [Address, Serve]

/-- One request under a fixed liveness, from a cursor `c ≥ 0`: the cursor is
advanced first, then the first live entry at or after it is selected and the
request is forwarded to it. -/
theorem serveProxy_skip (live : simpleServer → Bool) (port : String) (l : List simpleServer)
    (hne : l ≠ []) (d c : Nat) (tr : List Event) (fuel : Nat) (s : simpleServer) (hf : d < fuel)
    (hdead : ∀ j, j < d → (circ l (c + 1 + j)).map live = some false)
    (hd : (circ l (c + 1 + d)).map live = some true) (hs : circ l (c + 1 + d) = some s)
    (hb : c + 1 + d < 2 ^ 63) :
    serveProxy (fixedLiveness live) fuel (stateAt port l c tr)
      = .returned (stateAt port l (wrapInt (((c + 1 : Nat) : Int) + d + 1))
          (tr ++ probeRun live l (c + 1) (d + 1) ++ [Event.forwarded s])) := by
  have hw : wrapInt ((c : Int) + 1) = ((c + 1 : Nat) : Int) := wrapInt_succ_nat c (by omega)
  have hsel := getNext_skip live port l hne d (c + 1) tr fuel hf hdead hd hb
  rw [hs] at hsel
  rw [serveProxy_of_select _ _ _ _ s (by rw [incrCount_stateAt, hw]; exact hsel)]
  rfl

theorem serveTimes_allLive (live : simpleServer → Bool) (port : String) (l : List simpleServer)
    (hne : l ≠ []) (hall : ∀ s, s ∈ l → live s = true) (fuel : Nat) (hf : 0 < fuel) :
    ∀ (k c : Nat) (tr : List Event), c < 2 ^ 63 → c + 2 * k ≤ 2 ^ 63 →
      ∃ tr1, serveTimes (fixedLiveness live) fuel k (stateAt port l c tr)
          = .returned (stateAt port l (wrapInt ((c : Int) + 2 * k)) tr1) ∧
        (forwardedTo tr1).map some
          = (forwardedTo tr).map some ++ (List.range k).map (fun j => circ l (c + 2 * j + 1)) := by
  intro k
  induction k with
  | zero =>
    intro c tr hc _
    refine ⟨tr, ?_, by simp⟩
    have hw : wrapInt ((c : Int) + 2 * (0 : Nat)) = c := by
      rw [wrapInt_eq_self] <;> push_cast <;> omega
    rw [hw]
    rfl
  | succ k ih =>
    intro c tr hc hk
    obtain ⟨s, hs⟩ := circ_some l (c + 1 + 0) hne
    have hcall := serveProxy_skip live port l hne 0 c tr fuel s hf
      (fun j hj => absurd hj (by omega)) (circ_live_of_all live l hne hall _) hs (by omega)
    rw [serveTimes, hcall]
    dsimp only
    rcases Nat.eq_zero_or_pos k with rfl | hpos
    · refine ⟨tr ++ probeRun live l (c + 1) (0 + 1) ++ [Event.forwarded s], ?_, ?_⟩
      · have e : ((c + 1 : Nat) : Int) + (0 : Nat) + 1 = (c : Int) + 2 * ((0 + 1 : Nat) : Int) := by
          push_cast
          ring
        rw [serveTimes, e]
      · have hs0 : circ l (c + 1) = some s := hs
        rw [forwardedTo_append, forwardedTo_append]
        simp [probeRun, hs0, forwardedTo, List.range_succ]
    · have hw : wrapInt (((c + 1 : Nat) : Int) + (0 : Nat) + 1) = ((c + 2 : Nat) : Int) := by
        rw [wrapInt_eq_self] <;> push_cast <;> omega
      rw [hw]
      obtain ⟨tr1, h1, h2⟩ := ih (c + 2) _ (by omega) (by omega)
      refine ⟨tr1, ?_, ?_⟩
      · have e : ((c + 2 : Nat) : Int) + 2 * (k : Int) = (c : Int) + 2 * ((k + 1 : Nat) : Int) := by
          push_cast
          ring
        rw [h1, e]
      · rw [h2, forwardedTo_append, forwardedTo_append]
        simp only [probeRun, hs, forwardedTo, List.append_nil, List.map_append, List.map_cons,
          List.map_nil, List.range_succ_eq_map, List.map_map, List.append_assoc,
          List.singleton_append, Nat.add_zero]
        have e : (fun j => circ l (c + 2 + 2 * j + 1))
            = (fun j => circ l (c + 2 * j + 1)) ∘ Nat.succ := by
          funext j
          have e1 : c + 2 + 2 * j + 1 = c + 2 * (j + 1) + 1 := by omega
          simp only [Function.comp, Nat.succ_eq_add_one, e1]
        rw [e]

/-! ## The health report and the frame of the selection -/

theorem healthSweep_returned (alive : Liveness) :
    ∀ (servers : List Server) (st st1 : State),
      healthSweep alive servers st = .returned st1 →
      st1.lb = st.lb ∧ ∃ new, st1.trace = st.trace ++ new ∧
        new.map Event.probeTarget = servers := by
  intro servers
  induction servers with
  | nil =>
    intro st st1 h
    cases h
    exact ⟨rfl, [], by simp, rfl⟩
  | cons server rest ih =>
    intro st st1 h
    cases server with
    | none => cases h
    | some s =>
      simp only [healthSweep, IsAlive, Address] at h
      obtain ⟨h1, new, h2, h3⟩ := ih _ st1 h
      refine ⟨h1, Event.probed s (alive st.trace.length s) :: new, ?_, ?_⟩
      · rw [h2]
        simp [State.emit]
      · simp [Event.probeTarget, h3]

theorem healthSweep_total (alive : Liveness) :
    ∀ (servers : List Server) (st : State), none ∉ servers →
      ∃ st1, healthSweep alive servers st = .returned st1 := by
  intro servers
  induction servers with
  | nil => intro st _; exact ⟨st, rfl⟩
  | cons server rest ih =>
    intro st hnil
    cases server with
    | none => exact absurd (List.mem_cons_self _ _) hnil
    | some s =>
      obtain ⟨st1, h⟩ := ih (st.emit (Event.probed s (alive st.trace.length s)))
        (fun hm => hnil (List.mem_cons_of_mem _ hm))
      exact ⟨st1, by simp only [healthSweep, IsAlive, Address]; exact h⟩

theorem displayTimes_lb (alive : Liveness) :
    ∀ (m : Nat) (st stm : State), displayTimes alive m st = .returned stm → stm.lb = st.lb := by
  intro m
  induction m with
  | zero => intro st stm h; cases h; rfl
  | succ m ih =>
    intro st stm h
    rw [displayTimes] at h
    cases hd : displayServerHealthAndOrder alive st with
    | returned st1 =>
      rw [hd] at h
      have h1 := (healthSweep_returned alive _ st st1 hd).1
      rw [ih st1 stm h, h1]
    | panicked p => rw [hd] at h; cases h
    | spinning => rw [hd] at h; cases h

theorem displayTimes_total (alive : Liveness) :
    ∀ (m : Nat) (st : State), none ∉ st.lb.servers →
      ∃ stm, displayTimes alive m st = .returned stm := by
  intro m
  induction m with
  | zero => intro st _; exact ⟨st, rfl⟩
  | succ m ih =>
    intro st hnil
    obtain ⟨st1, h1⟩ := healthSweep_total alive st.lb.servers st hnil
    have hd : displayServerHealthAndOrder alive st = .returned st1 := h1
    have hlb : st1.lb = st.lb := (healthSweep_returned alive _ st st1 h1).1
    obtain ⟨stm, hm⟩ := ih st1 (by rw [hlb]; exact hnil)
    exact ⟨stm, by rw [displayTimes, hd]; exact hm⟩

theorem skipLoop_fixed_earlier (live : simpleServer → Bool) (tr0 : List Event) :
    ∀ (fuel : Nat) (server : Server) (lb : LoadBalancer) (tr : List Event),
      skipLoop (fixedLiveness live) fuel server { lb := lb, trace := tr0 ++ tr }
        = (skipLoop (fixedLiveness live) fuel server { lb := lb, trace := tr }).map
            (withEarlier tr0) := by
  intro fuel
  induction fuel with
  | zero => intro server lb tr; rfl
  | succ f ih =>
    intro server lb tr
    cases server with
    | none => rfl
    | some s =>
      cases hls : live s with
      | true =>
        simp only [skipLoop, isAlive_fixed, hls, Address, Outcome.map, withEarlier,
          State.emit, State.incrCount, List.append_assoc]
      | false =>
        simp only [skipLoop, isAlive_fixed, hls, Address, State.emit, State.incrCount,
          List.append_assoc]
        cases serverAtCursor (LoadBalancer.mk lb.port (wrapInt (lb.roundRobinCount + 1)) lb.servers) with
        | returned next => exact ih next _ _
        | panicked p => rfl
        | spinning => rfl

theorem getNext_fixed_earlier (live : simpleServer → Bool) (tr0 : List Event) (fuel : Nat)
    (lb : LoadBalancer) (tr : List Event) :
    getNextAvailableServer (fixedLiveness live) fuel { lb := lb, trace := tr0 ++ tr }
      = (getNextAvailableServer (fixedLiveness live) fuel { lb := lb, trace := tr }).map
          (withEarlier tr0) := by
  unfold getNextAvailableServer
  cases serverAtCursor lb with
  | returned server =>
    cases server with
    | none => rfl
    | some s => exact skipLoop_fixed_earlier live tr0 fuel (some s) lb tr
  | panicked p => rfl
  | spinning => rfl

theorem selectTimes_fixed_earlier (live : simpleServer → Bool) (tr0 : List Event) (fuel : Nat) :
    ∀ (k : Nat) (lb : LoadBalancer) (tr : List Event),
      (selectTimes (fixedLiveness live) fuel k { lb := lb, trace := tr0 ++ tr }).map Prod.fst
        = (selectTimes (fixedLiveness live) fuel k { lb := lb, trace := tr }).map Prod.fst := by
  intro k
  induction k with
  | zero => intro lb tr; rfl
  | succ k ih =>
    intro lb tr
    rw [selectTimes, selectTimes, getNext_fixed_earlier]
    cases getNextAvailableServer (fixedLiveness live) fuel { lb := lb, trace := tr } with
    | returned r =>
      obtain ⟨x, st1⟩ := r
      have h := ih st1.lb st1.trace
      simp only [Outcome.map, withEarlier]
      cases h1 : selectTimes (fixedLiveness live) fuel k { lb := st1.lb, trace := tr0 ++ st1.trace } with
      | returned r1 =>
        cases h2 : selectTimes (fixedLiveness live) fuel k st1 with
        | returned r2 =>
          rw [h1] at h
          have h2' : selectTimes (fixedLiveness live) fuel k { lb := st1.lb, trace := st1.trace }
              = .returned r2 := h2
          rw [h2'] at h
          simp only [Outcome.map, Outcome.returned.injEq] at h
          simp only [Outcome.map, h]
        | panicked p =>
          have h2' : selectTimes (fixedLiveness live) fuel k { lb := st1.lb, trace := st1.trace }
              = .panicked p := h2
          rw [h1, h2'] at h
          cases h
        | spinning =>
          have h2' : selectTimes (fixedLiveness live) fuel k { lb := st1.lb, trace := st1.trace }
              = .spinning := h2
          rw [h1, h2'] at h
          cases h
      | panicked p =>
        have h2 : (selectTimes (fixedLiveness live) fuel k st1).map Prod.fst = .panicked p := by
          rw [h1] at h
          exact h.symm
        cases h3 : selectTimes (fixedLiveness live) fuel k st1 with
        | returned r2 => rw [h3] at h2; cases h2
        | panicked q => rw [h3] at h2; simp only [Outcome.map] at h2 ⊢; exact h2.symm
        | spinning => rw [h3] at h2; cases h2
      | spinning =>
        have h2 : (selectTimes (fixedLiveness live) fuel k st1).map Prod.fst = .spinning := by
          rw [h1] at h
          exact h.symm
        cases h3 : selectTimes (fixedLiveness live) fuel k st1 with
        | returned r2 => rw [h3] at h2; cases h2
        | panicked q => rw [h3] at h2; cases h2
        | spinning => rfl
    | panicked p => rfl
    | spinning => rfl

/-- Under a fixed liveness the servers a sequence of selections returns depend
on the balancer only, not on the events observed before. -/
theorem selectTimes_fixed_trace_irrelevant (live : simpleServer → Bool) (fuel k : Nat)
    (st1 st2 : State) (h : st1.lb = st2.lb) :
    (selectTimes (fixedLiveness live) fuel k st1).map Prod.fst
      = (selectTimes (fixedLiveness live) fuel k st2).map Prod.fst := by
  have e1 := selectTimes_fixed_earlier live st1.trace fuel k st1.lb []
  have e2 := selectTimes_fixed_earlier live st2.trace fuel k st2.lb []
  simp only [List.append_nil] at e1 e2
  have h1 : st1 = { lb := st1.lb, trace := st1.trace } := rfl
  have h2 : st2 = { lb := st2.lb, trace := st2.trace } := rfl
  rw [h1, h2, e1, e2, h]

/-! ## The empty server list -/

theorem serverAtCursor_empty (lb : LoadBalancer) (h : lb.servers = []) :
    serverAtCursor lb = .panicked .divideByZero := by
  unfold serverAtCursor
  rw [if_pos (by rw [h]; rfl)]

theorem serverAtCursor_no_divide (lb : LoadBalancer) (h : lb.servers ≠ []) :
    serverAtCursor lb ≠ .panicked .divideByZero := by
  have hlen : lb.servers.length ≠ 0 := fun h0 => h (List.length_eq_zero.mp h0)
  unfold serverAtCursor
  rw [if_neg hlen]
  dsimp only
  split
  · intro hc; cases hc
  · split
    · intro hc; cases hc
    · intro hc; cases hc

theorem skipLoop_no_divide (alive : Liveness) :
    ∀ (fuel : Nat) (server : Server) (st : State), st.lb.servers ≠ [] →
      skipLoop alive fuel server st ≠ .panicked .divideByZero := by
  intro fuel
  induction fuel with
  | zero => intro server st _ h; cases h
  | succ f ih =>
    intro server st hne h
    cases server with
    | none => cases h
    | some s =>
      cases hok : alive st.trace.length s with
      | true =>
        simp only [skipLoop, IsAlive, hok, Address] at h
        cases h
      | false =>
        simp only [skipLoop, IsAlive, hok, Address] at h
        cases hnext : serverAtCursor (st.emit (Event.probed s false)).incrCount.lb with
        | returned next =>
          rw [hnext] at h
          exact ih next (st.emit (Event.probed s false)).incrCount hne h
        | panicked p =>
          rw [hnext] at h
          cases h
          exact serverAtCursor_no_divide (st.emit (Event.probed s false)).incrCount.lb hne hnext
        | spinning => rw [hnext] at h; cases h

theorem getNext_no_divide (alive : Liveness) (fuel : Nat) (st : State) (hne : st.lb.servers ≠ []) :
    getNextAvailableServer alive fuel st ≠ .panicked .divideByZero := by
  intro h
  unfold getNextAvailableServer at h
  cases hcur : serverAtCursor st.lb with
  | returned server =>
    rw [hcur] at h
    cases server with
    | none => cases h
    | some s => exact skipLoop_no_divide alive fuel (some s) st hne h
  | panicked p =>
    rw [hcur] at h
    cases h
    exact serverAtCursor_no_divide _ hne hcur
  | spinning => rw [hcur] at h; cases h

theorem serveProxy_no_divide (alive : Liveness) (fuel : Nat) (st : State) (hne : st.lb.servers ≠ []) :
    serveProxy alive fuel st ≠ .panicked .divideByZero := by
  intro h
  unfold serveProxy at h
  cases hsel : getNextAvailableServer alive fuel st.incrCount with
  | returned r =>
    obtain ⟨x, st1⟩ := r
    rw [hsel] at h
    cases x with
    | none => cases h
    | some s => simp [Address, Serve] at h
  | panicked p =>
    rw [hsel] at h
    cases h
    exact getNext_no_divide alive fuel st.incrCount hne hsel
  | spinning => rw [hsel] at h; cases h

/-! ## One dead server -/

theorem succ_mod_cases (c n : Nat) (hn : 0 < n) :
    (c % n + 1 < n ∧ (c + 1) % n = c % n + 1) ∨ (c % n + 1 = n ∧ (c + 1) % n = 0) := by
  have hp : c % n < n := Nat.mod_lt _ hn
  have e : (c + 1) % n = (c % n + 1) % n := (Nat.mod_add_mod c n 1).symm
  by_cases h : c % n + 1 < n
  · left
    exact ⟨h, by rw [e, Nat.mod_eq_of_lt h]⟩
  · right
    have h1 : c % n + 1 = n := by omega
    exact ⟨h1, by rw [e, h1, Nat.mod_self]⟩

theorem mod_pred_cases (q m : Nat) (hq : q ≤ m) :
    (q < m ∧ q % m = q) ∨ (q = m ∧ q % m = 0) := by
  by_cases h : q < m
  · exact Or.inl ⟨h, Nat.mod_eq_of_lt h⟩
  · have e : q = m := by omega
    exact Or.inr ⟨e, by rw [e, Nat.mod_self]⟩

/-- Arithmetic of one selection when the cursor is on a live entry. -/
theorem oneDead_arith_live (n i c : Nat) (hn : 2 ≤ n) (hi : i < n) (hp : c % n ≠ i) :
    c % n = (if liveIndex i (c % n) % (n - 1) < i then liveIndex i (c % n) % (n - 1)
      else liveIndex i (c % n) % (n - 1) + 1) ∧
    (liveIndex i ((c + 1) % n) = liveIndex i (c % n) + 1 ∨
      liveIndex i ((c + 1) % n) + (n - 1) = liveIndex i (c % n) + 1) := by
  have hlt : c % n < n := Nat.mod_lt _ (by omega)
  have h1 := succ_mod_cases c n (by omega)
  have hq : liveIndex i (c % n) ≤ n - 1 := by
    unfold liveIndex
    split <;> omega
  have hr := mod_pred_cases (liveIndex i (c % n)) (n - 1) hq
  generalize (c + 1) % n = p1 at h1 ⊢
  generalize liveIndex i (c % n) % (n - 1) = r at hr ⊢
  generalize c % n = p at *
  unfold liveIndex at *
  split_ifs at * <;> omega

/-- Arithmetic of one selection when the cursor is on the dead entry. -/
theorem oneDead_arith_dead (n i c : Nat) (hn : 2 ≤ n) (hi : i < n) (hp : c % n = i) :
    (c + 1) % n ≠ i ∧
    (c + 1) % n = (if liveIndex i (c % n) % (n - 1) < i then liveIndex i (c % n) % (n - 1)
      else liveIndex i (c % n) % (n - 1) + 1) ∧
    (liveIndex i ((c + 1 + 1) % n) = liveIndex i (c % n) + 1 ∨
      liveIndex i ((c + 1 + 1) % n) + (n - 1) = liveIndex i (c % n) + 1) := by
  have h1 := succ_mod_cases c n (by omega)
  have h2 := succ_mod_cases (c + 1) n (by omega)
  have hq : liveIndex i (c % n) ≤ n - 1 := by
    unfold liveIndex
    split <;> omega
  have hr := mod_pred_cases (liveIndex i (c % n)) (n - 1) hq
  generalize (c + 1 + 1) % n = p2 at h2 ⊢
  generalize (c + 1) % n = p1 at h1 h2 ⊢
  generalize liveIndex i (c % n) % (n - 1) = r at hr ⊢
  generalize c % n = p at *
  unfold liveIndex at *
  split_ifs at * <;> omega

theorem circ_eraseIdx (l : List simpleServer) (i y : Nat) (hi : i < l.length) :
    circ (l.eraseIdx i) y
      = l[if y % (l.length - 1) < i then y % (l.length - 1) else y % (l.length - 1) + 1]? := by
  unfold circ
  rw [List.length_eraseIdx_of_lt hi, List.getElem?_eraseIdx]
  split <;> rfl

theorem circ_add_length (l : List simpleServer) (a j : Nat) :
    circ l (a + l.length + j) = circ l (a + j) := by
  unfold circ
  rw [Nat.add_right_comm a l.length j, Nat.add_mod_right]

/-- One selection when exactly the entry at index `i` is dead: it returns the
live server whose position among the live ones is `liveIndex i (c mod n)`, and
moves the cursor to the position after it. -/
theorem oneDead_call (live : simpleServer → Bool) (port : String) (l : List simpleServer)
    (i : Nat) (hn : 2 ≤ l.length) (hi : i < l.length)
    (hdead : (l[i]?).map live = some false)
    (hlive : ∀ j, j < l.length → j ≠ i → (l[j]?).map live = some true)
    (c : Nat) (tr : List Event) (fuel : Nat) (hf : 1 < fuel) (hc : c + 1 < 2 ^ 63) :
    ∃ c1 tr1, c1 ≤ c + 2 ∧
      getNextAvailableServer (fixedLiveness live) fuel (stateAt port l c tr)
        = .returned (circ (l.eraseIdx i) (liveIndex i (c % l.length)),
            stateAt port l (wrapInt (c1 : Int)) tr1) ∧
      (liveIndex i (c1 % l.length) = liveIndex i (c % l.length) + 1 ∨
        liveIndex i (c1 % l.length) + (l.length - 1) = liveIndex i (c % l.length) + 1) := by
  have hne : l ≠ [] := by
    intro h
    rw [h] at hn
    simp at hn
  have hpos : 0 < l.length := by omega
  by_cases hp : c % l.length = i
  · obtain ⟨h1, h2, h3⟩ := oneDead_arith_dead l.length i c hn hi hp
    have hcall := getNext_skip live port l hne 1 c tr fuel hf
      (fun j hj => by
        have e : j = 0 := by omega
        rw [e]
        unfold circ
        rw [Nat.add_zero, hp]
        exact hdead)
      (by
        unfold circ
        exact hlive _ (Nat.mod_lt _ hpos) h1)
      (by omega)
    refine ⟨c + 1 + 1, tr ++ probeRun live l c (1 + 1), by omega, ?_, h3⟩
    rw [hcall, circ_eraseIdx l i _ hi, ← h2]
    have e : (c : Int) + ((1 : Nat) : Int) + 1 = ((c + 1 + 1 : Nat) : Int) := by
      push_cast
      ring
    rw [e]
    rfl
  · obtain ⟨h2, h3⟩ := oneDead_arith_live l.length i c hn hi hp
    have hcall := getNext_skip live port l hne 0 c tr fuel (by omega)
      (fun j hj => absurd hj (by omega))
      (by
        unfold circ
        rw [Nat.add_zero]
        exact hlive _ (Nat.mod_lt _ hpos) hp)
      (by omega)
    refine ⟨c + 1, tr ++ probeRun live l c (0 + 1), by omega, ?_, h3⟩
    rw [hcall, circ_eraseIdx l i _ hi, ← h2]
    have e : (c : Int) + ((0 : Nat) : Int) + 1 = ((c + 1 : Nat) : Int) := by
      push_cast
      ring
    rw [e]
    rfl

/-- Consecutive selections when exactly the entry at index `i` is dead: they
return the live servers in configured order, cyclically, as long as the cursor
cannot pass the largest `int`. -/
theorem oneDead_selectTimes (live : simpleServer → Bool) (port : String) (l : List simpleServer)
    (i : Nat) (hn : 2 ≤ l.length) (hi : i < l.length)
    (hdead : (l[i]?).map live = some false)
    (hlive : ∀ j, j < l.length → j ≠ i → (l[j]?).map live = some true)
    (fuel : Nat) (hf : 1 < fuel) :
    ∀ (k c : Nat) (tr : List Event), c < 2 ^ 63 → c + 2 * k ≤ 2 ^ 63 →
      ∃ st1, selectTimes (fixedLiveness live) fuel k (stateAt port l c tr)
        = .returned ((List.range k).map
            (fun j => circ (l.eraseIdx i) (liveIndex i (c % l.length) + j)), st1) := by
  intro k
  induction k with
  | zero =>
    intro c tr _ _
    exact ⟨_, rfl⟩
  | succ k ih =>
    intro c tr hc hk
    obtain ⟨c1, tr1, hc1, hcall, hidx⟩ :=
      oneDead_call live port l i hn hi hdead hlive c tr fuel hf (by omega)
    rw [selectTimes, hcall]
    dsimp only
    rcases Nat.eq_zero_or_pos k with rfl | hpos
    · exact ⟨stateAt port l (wrapInt (c1 : Int)) tr1, by simp [selectTimes, List.range_succ]⟩
    · have hw : wrapInt (c1 : Int) = (c1 : Int) := by
        rw [wrapInt_eq_self] <;> omega
      rw [hw]
      obtain ⟨st1, h1⟩ := ih c1 tr1 (by omega) (by omega)
      refine ⟨st1, ?_⟩
      rw [h1]
      simp only [List.range_succ_eq_map, List.map_cons, List.map_map, Nat.add_zero]
      have e : (fun j => circ (l.eraseIdx i) (liveIndex i (c1 % l.length) + j))
          = (fun j => circ (l.eraseIdx i) (liveIndex i (c % l.length) + j)) ∘ Nat.succ := by
        funext j
        simp only [Function.comp, Nat.succ_eq_add_one]
        rcases hidx with h | h
        · rw [h]
          have e1 : liveIndex i (c % l.length) + 1 + j = liveIndex i (c % l.length) + (j + 1) := by
            omega
          rw [e1]
        · have hlen : (l.eraseIdx i).length = l.length - 1 := List.length_eraseIdx_of_lt hi
          have e1 : liveIndex i (c % l.length) + (j + 1)
              = liveIndex i (c1 % l.length) + (l.eraseIdx i).length + j := by
            rw [hlen]
            omega
          rw [e1, circ_add_length]
      rw [e]

/-- Under a fixed liveness every server a sequence of selections returns is a
live one. -/
theorem selectTimes_returns_live (live : simpleServer → Bool) (fuel : Nat) :
    ∀ (k : Nat) (st : State) (xs : List Server) (st1 : State),
      selectTimes (fixedLiveness live) fuel k st = .returned (xs, st1) →
      ∀ x, x ∈ xs → x.map live = some true := by
  intro k
  induction k with
  | zero =>
    intro st xs st1 h x hx
    cases h
    cases hx
  | succ k ih =>
    intro st xs st1 h x hx
    rw [selectTimes] at h
    cases hsel : getNextAvailableServer (fixedLiveness live) fuel st with
    | returned r =>
      obtain ⟨y, st2⟩ := r
      rw [hsel] at h
      dsimp only at h
      cases hrest : selectTimes (fixedLiveness live) fuel k st2 with
      | returned r2 =>
        obtain ⟨ys, st3⟩ := r2
        rw [hrest] at h
        simp only [Outcome.returned.injEq, Prod.mk.injEq] at h
        obtain ⟨hxs, _⟩ := h
        rw [← hxs] at hx
        rcases List.mem_cons.mp hx with hxy | hx
        · obtain ⟨_, _, _, s, _, hy, _, _, t, ht⟩ := getNext_returned _ fuel st y st2 hsel
          rw [hxy, hy]
          simpa [fixedLiveness] using ht
        · exact ih st2 ys st3 hrest x hx
      | panicked p => rw [hrest] at h; cases h
      | spinning => rw [hrest] at h; cases h
    | panicked p => rw [hsel] at h; cases h
    | spinning => rw [hsel] at h; cases h

theorem getNext_of_cursor (alive : Liveness) (fuel : Nat) (st : State) (s : simpleServer)
    (h : serverAtCursor st.lb = .returned (some s)) :
    getNextAvailableServer alive fuel st = skipLoop alive fuel (some s) st := by
  unfold getNextAvailableServer
  rw [h]
  rfl

theorem skipLoop_dead_then_fault (alive : Liveness) (f : Nat) (s : simpleServer) (st : State)
    (p : GoPanic) (hs : alive st.trace.length s = false)
    (h : serverAtCursor (st.emit (Event.probed s false)).incrCount.lb = .panicked p) :
    skipLoop alive (f + 1) (some s) st = .panicked p := by
  simp only [skipLoop, IsAlive, hs, Address, h]

/-- At the cursor `-2^63` over two servers the index is 0; when that server is
dead the cursor moves to `-2^63 + 1`, whose index `-1` is out of range. -/
theorem getNext_two_at_min (live : simpleServer → Bool) (f : Nat) (port : String)
    (a b : simpleServer) (hb : live b = false) (tr : List Event) :
    getNextAvailableServer (fixedLiveness live) (f + 1) (stateAt port [b, a] (-(2 ^ 63)) tr)
      = .panicked .indexOutOfRange := by
  have h0 : serverAtCursor (stateAt port [b, a] (-(2 ^ 63)) tr).lb = .returned (some b) := by
    apply serverAtCursor_of_index _ 0
    · simp [stateAt]
    · show Int.tmod (-(2 ^ 63)) ((2 : Nat) : Int) = ((0 : Nat) : Int)
      decide
    · rfl
  rw [getNext_of_cursor _ _ _ b h0]
  apply skipLoop_dead_then_fault
  · exact hb
  · apply serverAtCursor_negative
    · simp [stateAt, State.emit, State.incrCount]
    · show Int.tmod (wrapInt (-(2 ^ 63) + 1)) ((2 : Nat) : Int) < 0
      decide

theorem twoServers_selectTimes (live : simpleServer → Bool) (port : String)
    (a b : simpleServer) (hb : live b = false) (ha : live a = true) (fuel : Nat)
    (hf : 1 < fuel) :
    ∀ (k c : Nat) (tr : List Event), c % 2 = 0 → c < 2 ^ 63 → c + 2 * k ≤ 2 ^ 63 →
      ∃ xs tr1, selectTimes (fixedLiveness live) fuel k (stateAt port [b, a] c tr)
        = .returned (xs, stateAt port [b, a] (wrapInt ((c : Int) + 2 * k)) tr1) := by
  intro k
  induction k with
  | zero =>
    intro c tr _ hc _
    have hw : wrapInt ((c : Int) + 2 * (0 : Nat)) = c := by
      rw [wrapInt_eq_self] <;> push_cast <;> omega
    exact ⟨[], tr, by rw [hw]; rfl⟩
  | succ k ih =>
    intro c tr hc0 hc hk
    have h1 : (c + 1) % 2 = 1 := by omega
    have hcall := getNext_skip live port [b, a] (by simp) 1 c tr fuel hf
      (fun j hj => by
        have e : j = 0 := by omega
        rw [e]
        unfold circ
        simp [hc0, hb])
      (by
        unfold circ
        simp [h1, ha])
      (by omega)
    rw [selectTimes, hcall]
    dsimp only
    rcases Nat.eq_zero_or_pos k with rfl | hpos
    · refine ⟨[circ [b, a] (c + 1)], tr ++ probeRun live [b, a] c (1 + 1), ?_⟩
      have e : (c : Int) + ((1 : Nat) : Int) + 1 = (c : Int) + 2 * ((0 + 1 : Nat) : Int) := by
        push_cast
        ring
      rw [selectTimes, e]
    · have hw : wrapInt ((c : Int) + ((1 : Nat) : Int) + 1) = ((c + 2 : Nat) : Int) := by
        rw [wrapInt_eq_self] <;> push_cast <;> omega
      rw [hw]
      obtain ⟨xs, tr1, h2⟩ := ih (c + 2) (tr ++ probeRun live [b, a] c (1 + 1)) (by omega)
        (by omega) (by omega)
      refine ⟨circ [b, a] (c + 1) :: xs, tr1, ?_⟩
      have e : ((c + 2 : Nat) : Int) + 2 * (k : Int) = (c : Int) + 2 * ((k + 1 : Nat) : Int) := by
        push_cast
        ring
      rw [h2, e]

/-! ## The claims -/

/-- C1 (amended): for a non-empty list of servers, a cursor `c ≥ 0` and a fixed
liveness with at least one live server, there is a least offset `d < n` whose
entry `servers[(c+d) mod n]` is alive (the entries at offsets `0..d-1` are
dead); when `c + d` does not exceed the largest `int`, every
`getNextAvailableServer` call with enough fuel returns that entry after probing
exactly the offsets `0..d` in circular order, and leaves `roundRobinCount`
equal to `c+d+1`, reduced to `-2^63` when `c+d+1 = 2^63`. -/
theorem getNextAvailableServer_returns_first_live (live : simpleServer → Bool) (port : String)
    (l : List simpleServer) (c : Nat) (tr : List Event) (hne : l ≠ [])
    (hlive : ∃ s, s ∈ l ∧ live s = true) :
    ∃ d, d < l.length ∧ (circ l (c + d)).map live = some true ∧
      (∀ j, j < d → (circ l (c + j)).map live = some false) ∧
      (c + d < 2 ^ 63 → ∀ fuel, d < fuel →
        getNextAvailableServer (fixedLiveness live) fuel (stateAt port l c tr)
          = .returned (circ l (c + d),
              stateAt port l (if c + d + 1 < 2 ^ 63 then ((c + d + 1 : Nat) : Int) else -(2 ^ 63))
                (tr ++ probeRun live l c (d + 1)))) := by
  obtain ⟨d, hd, halive, hdead⟩ := exists_first_live live l c hlive
  refine ⟨d, hd, halive, hdead, ?_⟩
  intro hb fuel hf
  rw [getNext_skip live port l hne d c tr fuel hf hdead halive hb]
  have hw : wrapInt ((c : Int) + d + 1)
      = if c + d + 1 < 2 ^ 63 then ((c + d + 1 : Nat) : Int) else -(2 ^ 63) := by
    split
    · rw [wrapInt_eq_self] <;> push_cast <;> omega
    · have e : (c : Int) + d + 1 = 2 ^ 63 := by push_cast; omega
      rw [e]; decide
  rw [hw]

/-- C1 at `[A, B, C]` with `B` dead and the cursor on `B`: the call skips `B`
and returns `C`, leaving the cursor at 3. -/
theorem getNextAvailableServer_returns_first_live_witness :
    ∃ d, d < [srvA, srvB, srvC].length ∧
      (circ [srvA, srvB, srvC] (1 + d)).map onlyBDead = some true ∧
      (∀ j, j < d → (circ [srvA, srvB, srvC] (1 + j)).map onlyBDead = some false) ∧
      (1 + d < 2 ^ 63 → ∀ fuel, d < fuel →
        getNextAvailableServer (fixedLiveness onlyBDead) fuel
            (stateAt ":8081" [srvA, srvB, srvC] (1 : Nat) [])
          = .returned (circ [srvA, srvB, srvC] (1 + d),
              stateAt ":8081" [srvA, srvB, srvC]
                (if 1 + d + 1 < 2 ^ 63 then ((1 + d + 1 : Nat) : Int) else -(2 ^ 63))
                ([] ++ probeRun onlyBDead [srvA, srvB, srvC] 1 (d + 1)))) :=
  getNextAvailableServer_returns_first_live onlyBDead ":8081" [srvA, srvB, srvC] 1 []
    (by decide) ⟨srvA, by decide, by decide⟩

/-- C1 fails as stated at the largest cursor value `2^63 - 1`.  With `[A, B, C]`
the cursor is on `B`.  If `B` is dead and the others are alive (so `d = 1` and
the claim promises `C`), the increment wraps to `-2^63`, the index
`-2^63 % 3 = -2` is out of range and the call faults, whatever the fuel.  If `B`
is alive, `B` is returned but the cursor is left at `-2^63`, not at `2^63`. -/
theorem getNextAvailableServer_largest_cursor_counterexample :
    (∃ s, s ∈ [srvA, srvB, srvC] ∧ onlyBDead s = true) ∧
    (circ [srvA, srvB, srvC] (2 ^ 63 - 1)).map onlyBDead = some false ∧
    (circ [srvA, srvB, srvC] (2 ^ 63 - 1 + 1)).map onlyBDead = some true ∧
    getNextAvailableServer (fixedLiveness onlyBDead) 4
        (stateAt ":8081" [srvA, srvB, srvC] (2 ^ 63 - 1) [])
      = .panicked .indexOutOfRange ∧
    (¬ ∃ fuel r, getNextAvailableServer (fixedLiveness onlyBDead) fuel
        (stateAt ":8081" [srvA, srvB, srvC] (2 ^ 63 - 1) []) = .returned r) ∧
    getNextAvailableServer (fixedLiveness allLive) 1
        (stateAt ":8081" [srvA, srvB, srvC] (2 ^ 63 - 1) [])
      = .returned (some srvB,
          stateAt ":8081" [srvA, srvB, srvC] (-(2 ^ 63)) [Event.probed srvB true]) := by
  refine ⟨⟨srvA, by decide, by decide⟩, by decide, by decide, by rfl, ?_, by rfl⟩
  rintro ⟨fuel, r, h⟩
  cases fuel with
  | zero =>
    have e : getNextAvailableServer (fixedLiveness onlyBDead) 0
        (stateAt ":8081" [srvA, srvB, srvC] (2 ^ 63 - 1) []) = .spinning := by
      rfl
    rw [e] at h
    cases h
  | succ f =>
    have e : getNextAvailableServer (fixedLiveness onlyBDead) (f + 1)
        (stateAt ":8081" [srvA, srvB, srvC] (2 ^ 63 - 1) []) = .panicked .indexOutOfRange := by
      rfl
    rw [e] at h
    cases h

/-- C2 (amended): for a non-empty list of servers that are all alive, the first
`k` calls of `getNextAvailableServer` on a fresh balancer, for every
`k ≤ 2^63`, return `servers[0 mod n], servers[1 mod n], ..., servers[(k-1) mod n]`
in that order (each call probing the server it returns), and leave the cursor
at `k`, reduced to `-2^63` when `k = 2^63`.  In particular the first `n` calls
return the configured list in order, and the next one `servers[0]` again. -/
theorem selection_round_robin (live : simpleServer → Bool) (port : String)
    (l : List simpleServer) (k fuel : Nat) (hne : l ≠ [])
    (hall : ∀ s, s ∈ l → live s = true) (hf : 0 < fuel) (hk : k ≤ 2 ^ 63) :
    selectTimes (fixedLiveness live) fuel k (freshState port (l.map some))
      = .returned ((List.range k).map (fun j => circ l j),
          stateAt port l (if k < 2 ^ 63 then (k : Int) else -(2 ^ 63)) (probeRun live l 0 k)) ∧
    (List.range l.length).map (fun j => circ l j) = l.map some ∧
    circ l l.length = l[0]? := by
  refine ⟨?_, map_circ_range l, circ_length l⟩
  rw [selectTimes_fresh live port l hne hall fuel hf k hk]
  have hw : wrapInt (k : Int) = if k < 2 ^ 63 then (k : Int) else -(2 ^ 63) := by
    split
    · rw [wrapInt_eq_self] <;> omega
    · have e : k = 2 ^ 63 := by omega
      rw [e]
      exact wrapInt_cast_two_pow
  rw [hw]

/-- C2 at `[A, B, C]`, all alive: five calls return `A, B, C, A, B`. -/
theorem selection_round_robin_witness :
    selectTimes (fixedLiveness allLive) 1 5 (freshState ":8081" ([srvA, srvB, srvC].map some))
      = .returned ([some srvA, some srvB, some srvC, some srvA, some srvB],
          stateAt ":8081" [srvA, srvB, srvC] 5 (probeRun allLive [srvA, srvB, srvC] 0 5)) ∧
    (List.range 3).map (fun j => circ [srvA, srvB, srvC] j) = [srvA, srvB, srvC].map some ∧
    circ [srvA, srvB, srvC] 3 = some srvA :=
  selection_round_robin allLive ":8081" [srvA, srvB, srvC] 5 1 (by decide)
    (fun _ _ => rfl) (by decide) (by norm_num)

/-- C2 fails as stated at `k = 2^63 + 1`: with `[A, B, C]` all alive the claim
promises `servers[2^63 mod 3] = C`, but the first `2^63` calls leave the cursor
at `-2^63`, the index `-2^63 % 3 = -2` is out of range, and the call faults. -/
theorem selection_round_robin_counterexample :
    circ [srvA, srvB, srvC] (2 ^ 63 + 1 - 1) = some srvC ∧
    selectTimes (fixedLiveness allLive) 1 (2 ^ 63 + 1)
        (freshState ":8081" ([srvA, srvB, srvC].map some))
      = .panicked .indexOutOfRange := by
  refine ⟨by decide, ?_⟩
  have h := selectTimes_fresh allLive ":8081" [srvA, srvB, srvC] (by decide) (fun _ _ => rfl) 1
    (by decide) (2 ^ 63) (Nat.le_refl _)
  rw [wrapInt_cast_two_pow] at h
  exact selectTimes_snoc_fault _ _ _ _ _ _ _ h (getNext_three_at_min _ _ _ _ _ _ _)

/-- C3 (amended): for a list of `n ≥ 2` servers in which the one at index `i`
is dead and all others are alive (liveness fixed), on a fresh balancer: no
sequence of `getNextAvailableServer` calls that returns contains `servers[i]`,
whatever its length; and for every `k ≤ 2^62` the first `k` calls return the
live servers (the list without index `i`) in configured order, repeated
cyclically. -/
theorem one_dead_server_is_skipped (live : simpleServer → Bool) (port : String)
    (l : List simpleServer) (i k fuel : Nat) (hn : 2 ≤ l.length) (hi : i < l.length)
    (hdead : (l[i]?).map live = some false)
    (hlive : ∀ j, j < l.length → j ≠ i → (l[j]?).map live = some true) (hf : 1 < fuel) :
    (∀ xs st1, selectTimes (fixedLiveness live) fuel k (freshState port (l.map some))
        = .returned (xs, st1) → l[i]? ∉ xs) ∧
    (k ≤ 2 ^ 62 →
      ∃ st1, selectTimes (fixedLiveness live) fuel k (freshState port (l.map some))
        = .returned ((List.range k).map (fun j => circ (l.eraseIdx i) j), st1)) := by
  constructor
  · intro xs st1 h hmem
    have h1 := selectTimes_returns_live live fuel k _ xs st1 h _ hmem
    rw [hdead] at h1
    cases h1
  · intro hk
    obtain ⟨st1, h⟩ := oneDead_selectTimes live port l i hn hi hdead hlive fuel hf k 0 []
      (by norm_num) (by omega)
    refine ⟨st1, ?_⟩
    rw [freshState_eq_stateAt, h]
    have e : liveIndex i (0 % l.length) = 0 := by simp [liveIndex]
    simp only [e, Nat.zero_add]

/-- C3 at `[A, B, C]` with `B` dead: four calls on a fresh balancer return
`A, C, A, C`. -/
theorem one_dead_server_is_skipped_witness :
    (∀ xs st1, selectTimes (fixedLiveness onlyBDead) 2 4
        (freshState ":8081" ([srvA, srvB, srvC].map some)) = .returned (xs, st1) →
      [srvA, srvB, srvC][1]? ∉ xs) ∧
    (4 ≤ 2 ^ 62 →
      ∃ st1, selectTimes (fixedLiveness onlyBDead) 2 4
          (freshState ":8081" ([srvA, srvB, srvC].map some))
        = .returned ([some srvA, some srvC, some srvA, some srvC], st1)) :=
  one_dead_server_is_skipped onlyBDead ":8081" [srvA, srvB, srvC] 1 4 2 (by decide) (by decide)
    (by decide) (by decide) (by decide)

/-- C3 fails as stated at the call number `2^62 + 1`: with `[B, A]` and `B`
dead, every call skips `B` and advances the cursor by 2, so the first `2^62`
calls leave it at `-2^63` (the last increment wraps); the next call probes `B`
at index 0, moves the cursor to `-2^63 + 1`, whose index `-1` is out of range,
and faults instead of returning `A`. -/
theorem one_dead_server_counterexample :
    ([srvB, srvA][0]?).map onlyBDead = some false ∧
    ([srvB, srvA][1]?).map onlyBDead = some true ∧
    selectTimes (fixedLiveness onlyBDead) 2 (2 ^ 62 + 1)
        (freshState ":8081" ([srvB, srvA].map some))
      = .panicked .indexOutOfRange := by
  refine ⟨by decide, by decide, ?_⟩
  obtain ⟨xs, tr1, h⟩ := twoServers_selectTimes onlyBDead ":8081" srvA srvB rfl rfl 2
    (by decide) (2 ^ 62) 0 [] (by decide) (by norm_num) (by norm_num)
  have e : wrapInt (((0 : Nat) : Int) + 2 * ((2 ^ 62 : Nat) : Int)) = -(2 ^ 63) := by decide
  rw [e] at h
  rw [freshState_eq_stateAt]
  exact selectTimes_snoc_fault _ _ _ _ _ _ _ h
    (getNext_two_at_min onlyBDead 1 ":8081" srvA srvB rfl tr1)

/-- C4 (the code at the failing input): on a fresh balancer over `[A, B, C]`,
all alive, five sequential `serveProxy` calls forward to `B, A, C, B, A`, not
to `A, B, C, A, B`; with `B` dead, four calls forward to `C, C, C, C`, not to
`A, C, A, C`.  `serveProxy` increments the cursor before the selection, which
increments it again. -/
theorem serveProxy_rotation_on_fresh_balancer :
    (serveTimes (fixedLiveness allLive) 1 5
        (freshState ":8081" [some srvA, some srvB, some srvC])).map
        (fun st => forwardedTo st.trace)
      = .returned [srvB, srvA, srvC, srvB, srvA] ∧
    (serveTimes (fixedLiveness onlyBDead) 2 4
        (freshState ":8081" [some srvA, some srvB, some srvC])).map
        (fun st => forwardedTo st.trace)
      = .returned [srvC, srvC, srvC, srvC] := by
  constructor <;> rfl

/-- C5 (the code at the failing input): with the single server `A` dead, on a
fresh balancer, neither `getNextAvailableServer` nor `serveProxy` ever
finishes: whatever the fuel, the skip loop is still running when it is used up
(the cursor keeps advancing and `cursor % 1` is always 0), so no unavailable
outcome is reported and no 503 response is written. -/
theorem serveProxy_single_dead_server_spins (fuel : Nat) :
    getNextAvailableServer (fixedLiveness noneLive) fuel (freshState ":8081" [some srvA])
      = .spinning ∧
    serveProxy (fixedLiveness noneLive) fuel (freshState ":8081" [some srvA]) = .spinning := by
  constructor
  · exact getNext_single_dead noneLive ":8081" srvA rfl fuel 0 []
  · unfold serveProxy
    have h := getNext_single_dead noneLive ":8081" srvA rfl fuel (wrapInt (0 + 1)) []
    have e : (freshState ":8081" [some srvA]).incrCount
        = stateAt ":8081" [srvA] (wrapInt (0 + 1)) [] := rfl
    rw [e, h]

/-- C6 (amended): `NewLoadBalancer` never fails.  For every port and every
server list, the empty one included, it returns a balancer holding that port,
that list and the cursor 0.  The division by `len(servers)` is by a non-zero
number exactly when the list is non-empty: on a state whose list is non-empty
no `getNextAvailableServer` or `serveProxy` call faults with a division by
zero. -/
theorem NewLoadBalancer_accepts_any_list (port : String) (servers : List Server)
    (alive : Liveness) (fuel : Nat) (st : State) :
    NewLoadBalancer port servers = { port := port, roundRobinCount := 0, servers := servers } ∧
    (st.lb.servers ≠ [] →
      getNextAvailableServer alive fuel st ≠ .panicked .divideByZero ∧
      serveProxy alive fuel st ≠ .panicked .divideByZero) :=
  ⟨rfl, fun hne => ⟨getNext_no_divide alive fuel st hne, serveProxy_no_divide alive fuel st hne⟩⟩

/-- C6 at the fresh balancer over `[A, B, C]`: it is built, and neither a
selection nor a request on it divides by zero. -/
theorem NewLoadBalancer_accepts_any_list_witness :
    (freshState ":8081" [some srvA, some srvB, some srvC]).lb.servers ≠ [] ∧
    NewLoadBalancer ":8081" [some srvA, some srvB, some srvC]
      = { port := ":8081", roundRobinCount := 0, servers := [some srvA, some srvB, some srvC] } ∧
    getNextAvailableServer (fixedLiveness allLive) 1
        (freshState ":8081" [some srvA, some srvB, some srvC]) ≠ .panicked .divideByZero ∧
    serveProxy (fixedLiveness allLive) 1
        (freshState ":8081" [some srvA, some srvB, some srvC]) ≠ .panicked .divideByZero :=
  ⟨by decide,
    (NewLoadBalancer_accepts_any_list ":8081" [some srvA, some srvB, some srvC]
      (fixedLiveness allLive) 1 (freshState ":8081" [some srvA, some srvB, some srvC])).1,
    (NewLoadBalancer_accepts_any_list ":8081" [some srvA, some srvB, some srvC]
      (fixedLiveness allLive) 1 (freshState ":8081" [some srvA, some srvB, some srvC])).2
      (by decide)⟩

/-- C6 fails as stated: `NewLoadBalancer` over the empty list returns a
balancer (with an empty list and the cursor 0) instead of failing, and the
first selection or request on that balancer reaches the division by
`len(servers) = 0` and faults there. -/
theorem NewLoadBalancer_empty_list_counterexample :
    NewLoadBalancer ":8081" [] = { port := ":8081", roundRobinCount := 0, servers := [] } ∧
    (freshState ":8081" []).lb = NewLoadBalancer ":8081" [] ∧
    getNextAvailableServer (fixedLiveness allLive) 1 (freshState ":8081" [])
      = .panicked .divideByZero ∧
    serveProxy (fixedLiveness allLive) 1 (freshState ":8081" []) = .panicked .divideByZero := by
  refine ⟨rfl, rfl, ?_, ?_⟩ <;> rfl

/-- C7 (amended): the health report and `Address` leave the balancer alone.
For every state whose server list has no nil entry and every liveness (fixed
or changing), `displayServerHealthAndOrder` returns, leaves the whole balancer
(`roundRobinCount`, the server list, the port) unchanged, and the events it
adds are, one for one and in configured order, probes of the configured
servers; `Address` returns the address and has no state to touch.  Hence, under
a liveness that is fixed, any number `m` of health reports returns with the
balancer unchanged, and any sequence of `k` `getNextAvailableServer` calls
after them ends the same way and returns the same servers as without them. -/
theorem health_report_frame (alive : Liveness) (live : simpleServer → Bool) (st : State)
    (m k fuel : Nat) (hnil : none ∉ st.lb.servers) :
    (∃ st1, displayServerHealthAndOrder alive st = .returned st1 ∧
      st1.lb = st.lb ∧ ∃ new, st1.trace = st.trace ++ new ∧
        new.map Event.probeTarget = st.lb.servers) ∧
    (∀ s : simpleServer, Address (some s) = .returned s.address) ∧
    (∃ stm, displayTimes (fixedLiveness live) m st = .returned stm ∧
      stm.lb = st.lb ∧
      (selectTimes (fixedLiveness live) fuel k stm).map Prod.fst
        = (selectTimes (fixedLiveness live) fuel k st).map Prod.fst) := by
  refine ⟨?_, fun s => rfl, ?_⟩
  · obtain ⟨st1, h1⟩ := healthSweep_total alive st.lb.servers st hnil
    exact ⟨st1, h1, healthSweep_returned alive _ st st1 h1⟩
  · obtain ⟨stm, h⟩ := displayTimes_total (fixedLiveness live) m st hnil
    have hlb := displayTimes_lb _ m st stm h
    exact ⟨stm, h, hlb, selectTimes_fixed_trace_irrelevant live fuel k stm st hlb⟩

/-- C7 at `[A, B, C]` with `B` dead, on a fresh balancer: the list has no nil
entry, the health report returns with the balancer unchanged after probing
`A`, `B`, `C` in that order, two reports return with the balancer unchanged,
and the four selections after them return the same servers as four selections
on the fresh balancer. -/
theorem health_report_frame_witness :
    none ∉ (freshState ":8081" [some srvA, some srvB, some srvC]).lb.servers ∧
    (∃ st1, displayServerHealthAndOrder (fixedLiveness onlyBDead)
          (freshState ":8081" [some srvA, some srvB, some srvC]) = .returned st1 ∧
      st1.lb = (freshState ":8081" [some srvA, some srvB, some srvC]).lb ∧
      ∃ new, st1.trace = (freshState ":8081" [some srvA, some srvB, some srvC]).trace ++ new ∧
        new.map Event.probeTarget = [some srvA, some srvB, some srvC]) ∧
    (∀ s : simpleServer, Address (some s) = .returned s.address) ∧
    (∃ stm, displayTimes (fixedLiveness onlyBDead) 2
          (freshState ":8081" [some srvA, some srvB, some srvC]) = .returned stm ∧
      stm.lb = (freshState ":8081" [some srvA, some srvB, some srvC]).lb ∧
      (selectTimes (fixedLiveness onlyBDead) 2 4 stm).map Prod.fst
        = (selectTimes (fixedLiveness onlyBDead) 2 4
            (freshState ":8081" [some srvA, some srvB, some srvC])).map Prod.fst) :=
  ⟨by decide,
    health_report_frame (fixedLiveness onlyBDead) onlyBDead
      (freshState ":8081" [some srvA, some srvB, some srvC]) 2 4 2 (by decide)⟩

/-- C7 fails as stated for every balancer state and every liveness.  Over
`[A, nil, C]` the health report probes `A` and then faults on the nil entry, so
it does not return and `C` is never probed.  Under a liveness that changes from
probe to probe (`evenLive`) a health report changes what the next selection
returns: on a fresh balancer over `[A, B, C]` the selection returns `A`, but
after one health report (three probes, balancer unchanged) it finds `A` dead
and returns `B`. -/
theorem health_report_frame_counterexample :
    displayServerHealthAndOrder (fixedLiveness allLive)
        (freshState ":8081" [some srvA, none, some srvC])
      = .panicked .nilDereference ∧
    IsAlive (fixedLiveness allLive) (some srvA) (freshState ":8081" [some srvA, none, some srvC])
      = .returned (true, { lb := NewLoadBalancer ":8081" [some srvA, none, some srvC],
                           trace := [Event.probed srvA true] }) ∧
    healthSweep (fixedLiveness allLive) [none, some srvC]
        { lb := NewLoadBalancer ":8081" [some srvA, none, some srvC],
          trace := [Event.probed srvA true] }
      = .panicked .nilDereference ∧
    displayServerHealthAndOrder evenLive (freshState ":8081" [some srvA, some srvB, some srvC])
      = .returned (stateAt ":8081" [srvA, srvB, srvC] 0
          [Event.probed srvA true, Event.probed srvB false, Event.probed srvC true]) ∧
    (selectTimes evenLive 2 1 (freshState ":8081" [some srvA, some srvB, some srvC])).map Prod.fst
      = .returned [some srvA] ∧
    (selectTimes evenLive 2 1 (stateAt ":8081" [srvA, srvB, srvC] 0
        [Event.probed srvA true, Event.probed srvB false, Event.probed srvC true])).map Prod.fst
      = .returned [some srvB] := by
  refine ⟨?_, ?_, ?_, ?_, ?_, ?_⟩ <;> rfl

/-- C8 (amended): for a non-empty list of servers that are all alive and a
cursor `c ≥ 0` with `c + 1` not above the largest `int`, one `serveProxy` call
forwards to `servers[(c+1) mod n]` after probing it, and leaves
`roundRobinCount` at `c + 2`, reduced to `-2^63` when `c + 2 = 2^63`.  On a
fresh balancer, for every `k` with `2k ≤ 2^63`, the first `k` requests go to
`servers[1 mod n], servers[3 mod n], ..., servers[(2k-1) mod n]` in that
order. -/
theorem serveProxy_advances_by_two (live : simpleServer → Bool) (port : String)
    (l : List simpleServer) (c : Nat) (tr : List Event) (fuel k : Nat) (hne : l ≠ [])
    (hall : ∀ s, s ∈ l → live s = true) (hf : 0 < fuel) :
    (c + 1 < 2 ^ 63 →
      ∃ s, circ l (c + 1) = some s ∧
        serveProxy (fixedLiveness live) fuel (stateAt port l c tr)
          = .returned (stateAt port l
              (if c + 2 < 2 ^ 63 then ((c + 2 : Nat) : Int) else -(2 ^ 63))
              (tr ++ [Event.probed s true, Event.forwarded s]))) ∧
    (2 * k ≤ 2 ^ 63 →
      ∃ tr1, serveTimes (fixedLiveness live) fuel k (freshState port (l.map some))
          = .returned (stateAt port l
              (if 2 * k < 2 ^ 63 then ((2 * k : Nat) : Int) else -(2 ^ 63)) tr1) ∧
        (forwardedTo tr1).map some = (List.range k).map (fun j => circ l (2 * j + 1))) := by
  constructor
  · intro hc
    obtain ⟨s, hs⟩ := circ_some l (c + 1 + 0) hne
    have hcall := serveProxy_skip live port l hne 0 c tr fuel s hf
      (fun j hj => absurd hj (by omega)) (circ_live_of_all live l hne hall _) hs (by omega)
    have hs0 : circ l (c + 1) = some s := hs
    have hls : live s = true := hall s (circ_mem l _ s hs0)
    refine ⟨s, hs0, ?_⟩
    rw [hcall]
    have hw : wrapInt (((c + 1 : Nat) : Int) + (0 : Nat) + 1)
        = if c + 2 < 2 ^ 63 then ((c + 2 : Nat) : Int) else -(2 ^ 63) := by
      split
      · rw [wrapInt_eq_self] <;> push_cast <;> omega
      · have e : ((c + 1 : Nat) : Int) + (0 : Nat) + 1 = ((2 ^ 63 : Nat) : Int) := by
          push_cast
          omega
        rw [e]
        exact wrapInt_cast_two_pow
    rw [hw]
    simp [probeRun, hs0, hls, List.append_assoc]
  · intro hk
    obtain ⟨tr1, h1, h2⟩ :=
      serveTimes_allLive live port l hne hall fuel hf k 0 [] (by omega) (by omega)
    refine ⟨tr1, ?_, ?_⟩
    · rw [freshState_eq_stateAt, h1]
      have hw : wrapInt (((0 : Nat) : Int) + 2 * (k : Int))
          = if 2 * k < 2 ^ 63 then ((2 * k : Nat) : Int) else -(2 ^ 63) := by
        split
        · rw [wrapInt_eq_self] <;> push_cast <;> omega
        · have e : ((0 : Nat) : Int) + 2 * (k : Int) = ((2 ^ 63 : Nat) : Int) := by
            push_cast
            omega
          rw [e]
          exact wrapInt_cast_two_pow
      rw [hw]
    · rw [h2]
      simp [forwardedTo]

/-- C8 at `[A, B, C]`, all alive, on a fresh balancer: the first request goes
to `B` and leaves the cursor at 2; three requests go to `B, A, C`. -/
theorem serveProxy_advances_by_two_witness :
    (0 + 1 < 2 ^ 63 →
      ∃ s, circ [srvA, srvB, srvC] (0 + 1) = some s ∧
        serveProxy (fixedLiveness allLive) 1 (stateAt ":8081" [srvA, srvB, srvC] (0 : Nat) [])
          = .returned (stateAt ":8081" [srvA, srvB, srvC]
              (if 0 + 2 < 2 ^ 63 then ((0 + 2 : Nat) : Int) else -(2 ^ 63))
              ([] ++ [Event.probed s true, Event.forwarded s]))) ∧
    (2 * 3 ≤ 2 ^ 63 →
      ∃ tr1, serveTimes (fixedLiveness allLive) 1 3
            (freshState ":8081" ([srvA, srvB, srvC].map some))
          = .returned (stateAt ":8081" [srvA, srvB, srvC]
              (if 2 * 3 < 2 ^ 63 then ((2 * 3 : Nat) : Int) else -(2 ^ 63)) tr1) ∧
        (forwardedTo tr1).map some
          = (List.range 3).map (fun j => circ [srvA, srvB, srvC] (2 * j + 1))) :=
  serveProxy_advances_by_two allLive ":8081" [srvA, srvB, srvC] 0 [] 1 3 (by decide)
    (fun _ _ => rfl) (by decide)

/-- C8 fails as stated at the two largest cursor values, with `[A, B, C]` all
alive.  At `c = 2^63 - 1` the claim promises a forward to
`servers[2^63 mod 3] = C`, but the first increment wraps to `-2^63`, the index
`-2` is out of range and the call faults.  At `c = 2^63 - 2` the request is
forwarded to `B` and the cursor is left at `-2^63`, not at `c + 2 = 2^63`. -/
theorem serveProxy_advances_by_two_counterexample :
    circ [srvA, srvB, srvC] (2 ^ 63 - 1 + 1) = some srvC ∧
    serveProxy (fixedLiveness allLive) 1 (stateAt ":8081" [srvA, srvB, srvC] (2 ^ 63 - 1) [])
      = .panicked .indexOutOfRange ∧
    serveProxy (fixedLiveness allLive) 1 (stateAt ":8081" [srvA, srvB, srvC] (2 ^ 63 - 2) [])
      = .returned (stateAt ":8081" [srvA, srvB, srvC] (-(2 ^ 63))
          [Event.probed srvB true, Event.forwarded srvB]) := by
  refine ⟨by decide, ?_, by rfl⟩
  apply serveProxy_of_select_fault
  have e : wrapInt (2 ^ 63 - 1 + 1) = -(2 ^ 63) := by decide
  rw [incrCount_stateAt, e]
  exact getNext_three_at_min _ _ _ _ _ _ _

/-- C9 (the code at the failing input): on a fresh balancer over `[A, B, C]`,
all alive, `2^63` calls of `getNextAvailableServer` all return and leave
`roundRobinCount` at `-2^63` (the last increment wraps).  There the index
`roundRobinCount % 3` is `-2`, below 0: the next selection indexes out of
bounds and faults. -/
theorem cursor_wraps_to_negative_index :
    selectTimes (fixedLiveness allLive) 1 (2 ^ 63)
        (freshState ":8081" ([srvA, srvB, srvC].map some))
      = .returned ((List.range (2 ^ 63)).map (fun j => circ [srvA, srvB, srvC] j),
          stateAt ":8081" [srvA, srvB, srvC] (-(2 ^ 63))
            (probeRun allLive [srvA, srvB, srvC] 0 (2 ^ 63))) ∧
    Int.tmod (-(2 ^ 63)) (([srvA, srvB, srvC].map some).length : Int) = -2 ∧
    (∀ tr, serverAtCursor (stateAt ":8081" [srvA, srvB, srvC] (-(2 ^ 63)) tr).lb
      = .panicked .indexOutOfRange) ∧
    (∀ fuel tr, getNextAvailableServer (fixedLiveness allLive) fuel
        (stateAt ":8081" [srvA, srvB, srvC] (-(2 ^ 63)) tr) = .panicked .indexOutOfRange) := by
  refine ⟨?_, by decide, fun tr => serverAtCursor_three_at_min _ _ _ _ _,
    fun fuel tr => getNext_three_at_min _ _ _ _ _ _ _⟩
  rw [selectTimes_fresh allLive ":8081" [srvA, srvB, srvC] (by decide) (fun _ _ => rfl) 1
      (by decide) (2 ^ 63) (Nat.le_refl _), wrapInt_cast_two_pow]

/-- C10: the service-unavailable branch of `serveProxy` is never taken.  For
every liveness (fixed or changing), every fuel and every state (also one whose
list has nil entries): a `getNextAvailableServer` call that returns, returns a
non-nil element of the server list, and the last event is the probe that found
it alive; a `serveProxy` call that completes has selected such a server, and
what it adds to the trace holds exactly one forward, to that server, and no 503
response. -/
theorem serveProxy_unavailable_unreachable (alive : Liveness) (fuel : Nat) (st : State) :
    (∀ x st1, getNextAvailableServer alive fuel st = .returned (x, st1) →
      ∃ s, x = some s ∧ some s ∈ st.lb.servers ∧
        st1.trace.getLast? = some (Event.probed s true)) ∧
    (∀ st2, serveProxy alive fuel st = .returned st2 →
      ∃ s st1 new, getNextAvailableServer alive fuel st.incrCount = .returned (some s, st1) ∧
        some s ∈ st.lb.servers ∧ st2.trace = st.trace ++ new ∧
        forwardedTo new = [s] ∧ Event.serviceUnavailable ∉ new) := by
  constructor
  · intro x st1 h
    obtain ⟨h1, _, _, s, evs, rfl, h5, _, _⟩ := getNext_returned alive fuel st x st1 h
    exact ⟨s, rfl, h1, by rw [h5]; simp⟩
  · intro st2 h
    obtain ⟨s, st1, evs, h1, h2, h3, h4, rfl⟩ := serveProxy_returned alive fuel st st2 h
    refine ⟨s, st1, evs ++ [Event.probed s true, Event.forwarded s], h1, h2, ?_, ?_, ?_⟩
    · simp [State.emit, h3]
    · rw [forwardedTo_append, forwardedTo_deadProbes evs h4]; rfl
    · intro hmem
      rcases List.mem_append.mp hmem with hm | hm
      · have := h4 _ hm
        cases this
      · simp at hm

/-- C10 at `[A, B, C]` with `B` dead, on a fresh balancer: the call completes,
having skipped `B` and forwarded to `C`, and no 503 response is written. -/
theorem serveProxy_unavailable_unreachable_witness :
    serveProxy (fixedLiveness onlyBDead) 2 (freshState ":8081" [some srvA, some srvB, some srvC])
      = .returned (stateAt ":8081" [srvA, srvB, srvC] 3
          [Event.probed srvB false, Event.probed srvC true, Event.forwarded srvC]) ∧
    ∃ s st1 new,
      getNextAvailableServer (fixedLiveness onlyBDead) 2
          (freshState ":8081" [some srvA, some srvB, some srvC]).incrCount
        = .returned (some s, st1) ∧
      some s ∈ (freshState ":8081" [some srvA, some srvB, some srvC]).lb.servers ∧
      (stateAt ":8081" [srvA, srvB, srvC] 3
          [Event.probed srvB false, Event.probed srvC true, Event.forwarded srvC]).trace
        = (freshState ":8081" [some srvA, some srvB, some srvC]).trace ++ new ∧
      forwardedTo new = [s] ∧ Event.serviceUnavailable ∉ new :=
  ⟨by rfl,
    (serveProxy_unavailable_unreachable (fixedLiveness onlyBDead) 2
      (freshState ":8081" [some srvA, some srvB, some srvC])).2 _ (by rfl)⟩

end LoadBalancing
